import Mathlib

/-!
# Verification of the fscache streaming file cache

Shallow embedding of the Go package `fscache` (streaming file cache), and
proofs of the specification claims against it.

The repository carries several revisions of the same components side by
side.  Where a claim cites a particular revision we embed that revision:

* the single-flight cache map (`cache.Get` / `cache.Remove` guarded by an
  RWMutex with a double-checked miss path) — second document of
  `src/unnamed/part_011`;
* the writer/reader close paths (`cachedFile.Close`, `cacheReader.Close`)
  — first document of `src/fscache.go`;
* the broadcaster (`closer` channel + `sync.Cond`) — `src/unnamed/part_002`;
* the janitor (`janitor.Scrub` / `janitor.removeFirst`) — first document of
  `src/janitor.go`;
* the disk backend (`stdFs.Reload`, `makeName`, `getKey`, `salt`, `tob64`,
  `fromb64`) — first document of `src/unnamed/part_005`.

Bytes are modelled as `Nat` (meaning `< 256`), byte strings as `List Nat`,
Go strings that are only compared / concatenated as Lean `String` or
`List Char`.  Fallible Go calls return `Option` / `Except`; a Go `panic`
is modelled as `Except.error`.
-/

namespace Fscache

/-! ## Sequential cache-map model (part_011, second document)

`cache` holds `files map[string]*cachedFile` and a backend `fs`.
`cachedFile` carries the backing object name, the atomic handle counter
`cnt`, the `sync.WaitGroup` counter `grp`, the write side `w` and the
broadcaster `b`.  The backend store is modelled as the list of names of
backing objects that currently exist.  Backend outcomes that the real
code receives from the interface (`fs.Create` generating a fresh salted
name or failing, `fs.Open` succeeding or failing) enter the model as
explicit arguments. -/

structure CachedFile where
  /-- Go `cachedFile.name`: the backend object name (`f.Name()`). -/
  name : String
  /-- Go `cachedFile.cnt`: outstanding handle count (atomic int64). -/
  cnt : Int
  /-- counter of `cachedFile.grp` (`sync.WaitGroup`). -/
  grpCount : Nat
  /-- whether the write side `w` is still open. -/
  writerOpen : Bool
  /-- whether the broadcaster `b` has been closed. -/
  bClosed : Bool
deriving DecidableEq, Repr

structure CacheState where
  /-- Go `cache.files`: association list key → entry (unique keys). -/
  files : List (String × CachedFile)
  /-- names of the backing objects existing in the backend. -/
  store : List String
deriving DecidableEq, Repr

/-- Go map lookup `c.files[key]`. -/
def lookupFile (fs : List (String × CachedFile)) (key : String) : Option CachedFile :=
  match fs with
  | [] => none
  | (k, f) :: rest => if k = key then some f else lookupFile rest key

/-- Go map delete `delete(c.files, key)`. -/
def deleteFile (fs : List (String × CachedFile)) (key : String) :
    List (String × CachedFile) :=
  fs.filter (fun p => decide (p.1 ≠ key))

/-- Go map update `c.files[key] = f` for a key already present. -/
def updateFile (fs : List (String × CachedFile)) (key : String) (f : CachedFile) :
    List (String × CachedFile) :=
  fs.map (fun p => if p.1 = key then (key, f) else p)

/-- Observable side effects of a cache operation on the backend and on the
half-built entry (used to state the rollback behaviour of `cache.Get` and
the ordering of `cache.Remove`). -/
inductive Action where
  /-- Go `c.fs.Create` produced the backing object `name`. -/
  | fsCreate (name : String)
  /-- Go `f.Close()` was invoked on the entry owning `name`. -/
  | entryClose (name : String)
  /-- Go `c.fs.Remove(name)` was invoked. -/
  | fsRemove (name : String)
  /-- Go `f.grp.Wait()` returned for the entry owning `name`. -/
  | grpWait (name : String)
deriving DecidableEq, Repr

inductive GetErr where
  /-- Go `c.newFile` failed: `c.fs.Create` returned an error. -/
  | createFailed
  /-- Go `f.next()` failed: `c.fs.Open` returned an error. -/
  | openFailed
deriving DecidableEq, Repr

/-- A reader handle: `cacheReader` keeps a reference to the entry it was
opened on; we record the entry's backing name. -/
structure ReaderHandle where
  entryName : String
deriving DecidableEq, Repr

/-- Result of `cache.Get`: reader handle plus the optional writer
(`io.WriteCloser`); the writer is identified by the backing name of the
entry it writes. -/
structure GetOk where
  reader : ReaderHandle
  writer : Option String
deriving DecidableEq, Repr

/-- Go `f.next()` (part_011, second document): `c.fs.Open(f.name)`; on
success `f.grp.Add(1)` and `atomic.AddInt64(&f.cnt, 1)`, else return the
error without touching the counters. -/
def cachedFileNext (f : CachedFile) (openOk : Bool) :
    Option (CachedFile × ReaderHandle) :=
  if openOk then
    some ({ f with grpCount := f.grpCount + 1, cnt := f.cnt + 1 }, ⟨f.name⟩)
  else
    none

/-- Go `c.newFile(key)` (part_011, second document): `c.fs.Create(key)`; on
success the entry starts with `grp.Add(1)` and `cnt = 1` held for the
writer.  `createName` is the name the backend assigns (`f.Name()`);
`none` models a create error. -/
def newFile (createName : Option String) : Option CachedFile :=
  match createName with
  | none => none
  | some nm =>
      some { name := nm, cnt := 1, grpCount := 1, writerOpen := true, bClosed := false }

/-- Go `cachedFile.Close` effect on the entry (writer close): closes `w`,
closes the broadcaster, decrements `cnt` and `grp`. -/
def closeEntryWriter (f : CachedFile) : CachedFile :=
  { f with writerOpen := false, bClosed := true, cnt := f.cnt - 1,
           grpCount := f.grpCount - 1 }

/-- Go `cache.Get` (part_011, second document, lines 286–320), sequential
semantics.  The fast path re-check and the locked re-check see the same
map here, so the double-check collapses to one lookup; the interleaved
behaviour is treated by the transition system below.

* hit: `r, err = f.next(); return r, nil, err`;
* miss: `f, err = c.newFile(key)`; on error return; `r, err = f.next()`;
  on error `f.Close(); c.fs.Remove(f.name)` and return; otherwise insert
  and return `r, f`. -/
def cacheGet (s : CacheState) (key : String) (createName : Option String)
    (openOk : Bool) : CacheState × Except GetErr GetOk × List Action :=
  match lookupFile s.files key with
  | some f =>
      match cachedFileNext f openOk with
      | some (f', r) =>
          ({ s with files := updateFile s.files key f' }, .ok ⟨r, none⟩, [])
      | none => (s, .error .openFailed, [])
  | none =>
      match newFile createName with
      | none => (s, .error .createFailed, [])
      | some f =>
          let s₁ : CacheState :=
            { s with store := f.name :: s.store }
          match cachedFileNext f openOk with
          | some (f', r) =>
              ({ s₁ with files := (key, f') :: s₁.files },
                .ok ⟨r, some f.name⟩, [.fsCreate f.name])
          | none =>
              ({ s₁ with store := s₁.store.erase f.name },
                .error .openFailed,
                [.fsCreate f.name, .entryClose f.name, .fsRemove f.name])

inductive RemoveErr where
  /-- Go `c.fs.Remove` failed (object missing). -/
  | removeFailed
deriving DecidableEq, Repr

/-- Go `cache.Remove` (part_011, second document, lines 322–333):
look up and unconditionally delete the binding under the lock; if the
entry existed, wait on its group and remove the backing object. -/
def cacheRemove (s : CacheState) (key : String) :
    CacheState × Option RemoveErr × List Action :=
  match lookupFile s.files key with
  | none => ({ s with files := deleteFile s.files key }, none, [])
  | some f =>
      ({ files := deleteFile s.files key, store := s.store.erase f.name },
        (if f.name ∈ s.store then none else some .removeFailed),
        [.grpWait f.name, .fsRemove f.name])

/-- Run a sequence of `Get key` calls (each with its backend outcomes),
collecting the results. -/
def runGets (s : CacheState) (key : String) :
    List (Option String × Bool) → CacheState × List (Except GetErr GetOk)
  | [] => (s, [])
  | (cn, ok) :: rest =>
      let out := cacheGet s key cn ok
      let tail := runGets out.1 key rest
      (tail.1, out.2.1 :: tail.2)

theorem lookupFile_updateFile_self {fs : List (String × CachedFile)} {key : String}
    {f f' : CachedFile} (h : lookupFile fs key = some f) :
    lookupFile (updateFile fs key f') key = some f' := by
  induction fs with
  | nil => simp [lookupFile] at h
  | cons p rest ih =>
      obtain ⟨k, v⟩ := p
      by_cases hk : k = key
      · subst hk
        simp only [updateFile, List.map_cons]
        rw [if_pos trivial]
        simp [lookupFile]
      · simp only [lookupFile, hk, if_false] at h
        simp only [updateFile, List.map_cons]
        rw [if_neg hk]
        simpa [lookupFile, hk, updateFile] using ih h

theorem deleteFile_of_absent {fs : List (String × CachedFile)} {key : String}
    (h : lookupFile fs key = none) : deleteFile fs key = fs := by
  induction fs with
  | nil => rfl
  | cons p rest ih =>
      obtain ⟨k, v⟩ := p
      by_cases hk : k = key
      · simp [lookupFile, hk] at h
      · simp only [lookupFile, hk, if_false] at h
        simpa [deleteFile, hk, List.filter] using ih h

/-- After a `Get` on a bound key, the key stays bound and no writer is
returned; misses cannot occur while the binding persists. -/
theorem cacheGet_bound {s : CacheState} {key : String} {f : CachedFile}
    (h : lookupFile s.files key = some f) (cn : Option String) (ok : Bool) :
    (∃ f', lookupFile (cacheGet s key cn ok).1.files key = some f') ∧
      (∀ g, (cacheGet s key cn ok).2.1 = .ok g → g.writer = none) := by
  unfold cacheGet
  rw [h]
  cases ok with
  | true =>
      refine ⟨⟨{ f with grpCount := f.grpCount + 1, cnt := f.cnt + 1 }, ?_⟩, ?_⟩
      · have hupd := @lookupFile_updateFile_self s.files key f ({ f with grpCount := f.grpCount + 1, cnt := f.cnt + 1 }) h
        simpa [cachedFileNext] using hupd
      · intro g hg
        simp [cachedFileNext] at hg
        simp [← hg]
  | false =>
      exact ⟨⟨f, by simpa [cachedFileNext] using h⟩, by simp [cachedFileNext]⟩

/-- C2 helper: a bound key survives any sequence of later `Get`s, none of
which hands out a writer. -/
theorem runGets_bound {s : CacheState} {key : String} {f : CachedFile}
    (h : lookupFile s.files key = some f) (ops : List (Option String × Bool)) :
    (∃ f', lookupFile (runGets s key ops).1.files key = some f') ∧
      (∀ res ∈ (runGets s key ops).2, ∀ g, res = .ok g → g.writer = none) := by
  induction ops generalizing s f with
  | nil => exact ⟨⟨f, h⟩, by simp [runGets]⟩
  | cons op rest ih =>
      obtain ⟨⟨f₁, h₁⟩, hw⟩ := cacheGet_bound h op.1 op.2
      obtain ⟨hbind, hrest⟩ := ih h₁
      refine ⟨hbind, ?_⟩
      intro res hres g hg
      simp only [runGets] at hres
      rw [List.mem_cons] at hres
      rcases hres with hres | hres
      · exact hw g (hres ▸ hg)
      · exact hrest res hres g hg

/-- Claim C2. `Get(K)` returns no writer when `K` is bound; when `K` is
absent and the backend succeeds it creates a new entry (backing object
`nm` in the store, entry holding the writer and one reader, counters at
2), returns a reader attached to that entry together with the writer;
and that writer is the only one ever given out for the entry: every
later `Get(K)`, whatever the backend outcomes, keeps the binding and
returns no writer. -/
theorem get_writer_semantics (s : CacheState) (key : String) :
    (∀ f cn ok, lookupFile s.files key = some f →
        ∀ g, (cacheGet s key cn ok).2.1 = .ok g → g.writer = none) ∧
    (∀ nm, lookupFile s.files key = none →
        (cacheGet s key (some nm) true).1.files =
            (key, ⟨nm, 2, 2, true, false⟩) :: s.files ∧
          (cacheGet s key (some nm) true).1.store = nm :: s.store ∧
          (cacheGet s key (some nm) true).2.1 = .ok ⟨⟨nm⟩, some nm⟩) ∧
    (∀ f ops, lookupFile s.files key = some f →
        (∃ f', lookupFile (runGets s key ops).1.files key = some f') ∧
          ∀ res ∈ (runGets s key ops).2, ∀ g, res = .ok g → g.writer = none) := by
  refine ⟨?_, ?_, ?_⟩
  · intro f cn ok h g hg
    exact (cacheGet_bound h cn ok).2 g hg
  · intro nm h
    refine ⟨?_, ?_, ?_⟩ <;> simp [cacheGet, h, newFile, cachedFileNext]
  · intro f ops h
    exact runGets_bound h ops

/-- Witness for C2 at a concrete state. -/
theorem get_writer_semantics_witness :
    (cacheGet ⟨[], []⟩ "k" (some "n1") true).2.1 = .ok ⟨⟨"n1"⟩, some "n1"⟩ ∧
      (∀ g, (cacheGet (cacheGet ⟨[], []⟩ "k" (some "n1") true).1 "k" (some "n2") true).2.1
          = .ok g → g.writer = none) := by
  have h := get_writer_semantics (⟨[], []⟩ : CacheState) "k"
  have hb := (h.2.1 "n1" (by decide)).2.2
  refine ⟨hb, ?_⟩
  intro g hg
  have h2 := get_writer_semantics (cacheGet ⟨[], []⟩ "k" (some "n1") true).1 "k"
  exact h2.1 ⟨"n1", 2, 2, true, false⟩ (some "n2") true (by decide) g hg

/-- Claim C5. If the backend fails while `Get` is creating a missing key,
`Get` returns an error, no binding is inserted, and on failure after
partial success the half-built entry is rolled back: it is closed and
its backing object removed, leaving the store as it was. -/
theorem get_rollback (s : CacheState) (key : String) (nm : String)
    (hmiss : lookupFile s.files key = none) :
    (∀ ok, cacheGet s key none ok = (s, .error .createFailed, [])) ∧
      cacheGet s key (some nm) false =
        (s, .error .openFailed, [.fsCreate nm, .entryClose nm, .fsRemove nm]) := by
  constructor
  · intro ok
    simp [cacheGet, hmiss, newFile]
  · simp [cacheGet, hmiss, newFile, cachedFileNext]

/-- Witness for C5 at a concrete state. -/
theorem get_rollback_witness :
    cacheGet ⟨[("j", ⟨"x", 0, 0, false, true⟩)], ["x"]⟩ "k" (some "n") false =
      (⟨[("j", ⟨"x", 0, 0, false, true⟩)], ["x"]⟩, .error .openFailed,
        [.fsCreate "n", .entryClose "n", .fsRemove "n"]) :=
  (get_rollback ⟨[("j", ⟨"x", 0, 0, false, true⟩)], ["x"]⟩ "k" "n" (by decide)).2

/-- Claim C10. `Remove(K)` on an unbound key returns no error and leaves
both the cache map and the backend store unchanged, performing no
backend action. -/
theorem remove_absent (s : CacheState) (key : String)
    (h : lookupFile s.files key = none) :
    cacheRemove s key = (s, none, []) := by
  simp [cacheRemove, h, deleteFile_of_absent h]

/-- Witness for C10 at a concrete state. -/
theorem remove_absent_witness :
    cacheRemove ⟨[("j", ⟨"x", 0, 0, false, true⟩)], ["x"]⟩ "k" =
      (⟨[("j", ⟨"x", 0, 0, false, true⟩)], ["x"]⟩, none, []) :=
  remove_absent _ "k" (by decide)

/-! ## Interleaved cache-map model (part_011, second document)

`cache.Get` runs two critical sections: the fast path under the shared
lock (one atomic read of the map, plus `f.next()` on a hit) and, on a
miss, the slow path under the exclusive lock (re-check, create, insert).
`cache.Remove` runs one critical section (look up and delete the
binding) and then, outside the lock, waits for the entry's group and
removes the backing object.  Each critical section is one step of the
transition relation; handle closes (`cacheReader.Close`,
`cachedFile.Close`) decrement the entry's group.  All steps concern one
fixed key; entries are identified by creation order.  Backend create and
open are taken to succeed here (C5 treats failures). -/

/-- Position-indexed list access (Go slice/array indexing). -/
def getAt : List α → Nat → Option α
  | [], _ => none
  | x :: _, 0 => some x
  | _ :: rest, n + 1 => getAt rest n

/-- Position-indexed list update. -/
def setAt : List α → Nat → α → List α
  | [], _, _ => []
  | _ :: rest, 0, y => y :: rest
  | x :: rest, n + 1, y => x :: setAt rest n y

theorem setAt_length {l : List α} {i : Nat} {x : α} :
    (setAt l i x).length = l.length := by
  induction l generalizing i with
  | nil => rfl
  | cons b rest ih =>
      cases i with
      | zero => rfl
      | succ n => simpa [setAt] using ih

theorem getAt_setAt_self {l : List α} {i : Nat} {a : α} (x : α)
    (h : getAt l i = some a) : getAt (setAt l i x) i = some x := by
  induction l generalizing i with
  | nil => simp [getAt] at h
  | cons b rest ih =>
      cases i with
      | zero => rfl
      | succ n => exact ih h

theorem getAt_setAt_ne {l : List α} {i j : Nat} (x : α) (hij : i ≠ j) :
    getAt (setAt l i x) j = getAt l j := by
  induction l generalizing i j with
  | nil => rfl
  | cons b rest ih =>
      cases i with
      | zero => cases j with
          | zero => exact absurd rfl hij
          | succ n => rfl
      | succ n => cases j with
          | zero => rfl
          | succ m => exact ih (fun hc => hij (by rw [hc]))

theorem getAt_replicate_start {n i : Nat} {g : α} {a : α}
    (h : getAt (List.replicate n g) i = some a) : a = g := by
  induction n generalizing i with
  | zero => simp [getAt] at h
  | succ n ih =>
      cases i with
      | zero => simpa [List.replicate, getAt] using h.symm
      | succ m => exact ih (by simpa [List.replicate, getAt] using h)

/-- Getter thread program counter for `cache.Get`. -/
inductive GP where
  /-- about to run the shared-lock fast path. -/
  | start
  /-- fast path saw a miss; about to take the exclusive lock. -/
  | miss
  /-- returned, holding a reader on entry `rid` and, if `writer`, the
  writer for `rid`. -/
  | done (rid : Nat) (writer : Bool)
deriving DecidableEq, Repr

/-- Remover thread program counter for `cache.Remove`. -/
inductive RP where
  /-- about to run the locked unbind section. -/
  | start
  /-- unbound entry `id`; in `f.grp.Wait()` before `fs.Remove`. -/
  | waiting (id : Nat)
  /-- returned. -/
  | done
deriving DecidableEq, Repr

structure MState where
  /-- binding of the fixed key (entry id), `c.files[key]`. -/
  bound : Option Nat
  /-- next fresh entry id. -/
  nextId : Nat
  /-- ids of all entries ever created, in order. -/
  created : List Nat
  /-- ids whose backing object exists in the backend. -/
  storeIds : List Nat
  /-- Go `grp` counters (`sync.WaitGroup`) per entry id. -/
  grp : List (Nat × Nat)
  /-- getter threads. -/
  getters : List GP
  /-- remover threads. -/
  removers : List RP
deriving DecidableEq, Repr

def grpGet (g : List (Nat × Nat)) (id : Nat) : Nat :=
  match g with
  | [] => 0
  | (k, n) :: rest => if k = id then n else grpGet rest id

def grpSet (g : List (Nat × Nat)) (id n : Nat) : List (Nat × Nat) :=
  (id, n) :: g.filter (fun p => decide (p.1 ≠ id))

inductive MEv where
  /-- getter `i` runs the shared-lock section of `Get`. -/
  | fast (i : Nat)
  /-- getter `i` runs the exclusive-lock section of `Get`. -/
  | slow (i : Nat)
  /-- remover `j` runs the locked unbind section of `Remove`. -/
  | rem (j : Nat)
  /-- remover `j` returns from `grp.Wait()` and calls `fs.Remove`. -/
  | fin (j : Nat)
  /-- some reader or writer handle on entry `id` is closed. -/
  | closeHandle (id : Nat)
deriving DecidableEq, Repr

def mstep (s : MState) (e : MEv) : Option MState :=
  match e with
  | .fast i =>
      match getAt s.getters i with
      | some GP.start =>
          match s.bound with
          | some id =>
              some { s with getters := setAt s.getters i (.done id false),
                            grp := grpSet s.grp id (grpGet s.grp id + 1) }
          | none => some { s with getters := setAt s.getters i .miss }
      | _ => none
  | .slow i =>
      match getAt s.getters i with
      | some GP.miss =>
          match s.bound with
          | some id =>
              some { s with getters := setAt s.getters i (.done id false),
                            grp := grpSet s.grp id (grpGet s.grp id + 1) }
          | none =>
              some { s with bound := some s.nextId, nextId := s.nextId + 1,
                            created := s.created ++ [s.nextId],
                            storeIds := s.nextId :: s.storeIds,
                            grp := grpSet s.grp s.nextId 2,
                            getters := setAt s.getters i (.done s.nextId true) }
      | _ => none
  | .rem j =>
      match getAt s.removers j with
      | some RP.start =>
          match s.bound with
          | some id =>
              some { s with bound := none, removers := setAt s.removers j (.waiting id) }
          | none => some { s with removers := setAt s.removers j .done }
      | _ => none
  | .fin j =>
      match getAt s.removers j with
      | some (RP.waiting id) =>
          if grpGet s.grp id = 0 then
            some { s with storeIds := s.storeIds.erase id,
                          removers := setAt s.removers j .done }
          else none
      | _ => none
  | .closeHandle id =>
      if grpGet s.grp id > 0 then
        some { s with grp := grpSet s.grp id (grpGet s.grp id - 1) }
      else none

def mrun (s : MState) : List MEv → Option MState
  | [] => some s
  | e :: tr =>
      match mstep s e with
      | some s' => mrun s' tr
      | none => none

/-- Initial state for C3: the key is absent, `n` getters race. -/
def initGet (n : Nat) : MState :=
  ⟨none, 0, [], [], [], List.replicate n .start, []⟩

/-- Single-flight invariant: before any creation no getter has returned;
after it, the one created entry is bound, exactly one getter holds the
writer, and every returned getter holds a reader on that entry. -/
def InvSF (s : MState) : Prop :=
  (s.bound = none →
      s.created = [] ∧
        ∀ i g, getAt s.getters i = some g → g = GP.start ∨ g = GP.miss) ∧
  (∀ e, s.bound = some e →
      s.created = [e] ∧
        (∃ i, getAt s.getters i = some (.done e true) ∧
          ∀ j rid, getAt s.getters j = some (.done rid true) → j = i) ∧
        ∀ j rid w, getAt s.getters j = some (.done rid w) → rid = e)

/-- A `Get` hit (either lock section) preserves the single-flight
invariant: the completing getter receives a reader on the bound entry
and no writer. -/
theorem invSF_hit {s : MState} {i id : Nat} {old : GP}
    (hg : getAt s.getters i = some old)
    (hold : old = GP.start ∨ old = GP.miss)
    (hb : s.bound = some id) (hinv : InvSF s) (grp' : List (Nat × Nat)) :
    InvSF { s with bound := some id,
                   getters := setAt s.getters i (.done id false), grp := grp' } := by
  obtain ⟨hc, ⟨iw, hiw, huniq⟩, hrd⟩ := hinv.2 id hb
  constructor
  · intro hnone
    have hnone' : (some id : Option Nat) = none := hnone
    cases hnone'
  · intro e he
    have he' : (some id : Option Nat) = some e := he
    injection he' with he''
    subst he''
    refine ⟨hc, ⟨iw, ?_, ?_⟩, ?_⟩
    · by_cases hi : i = iw
      · subst hi
        rw [hg] at hiw
        injection hiw with h'
        rcases hold with h'' | h'' <;> rw [h''] at h' <;> cases h'
      · show getAt (setAt s.getters i (.done id false)) iw = _
        rwa [getAt_setAt_ne _ hi]
    · intro j rid hj
      by_cases hi : i = j
      · subst hi
        have hj' : getAt (setAt s.getters i (GP.done id false)) i =
            some (GP.done rid true) := hj
        rw [getAt_setAt_self _ hg] at hj'
        injection hj' with h'
        cases ((GP.done.injEq _ _ _ _).mp h').2
      · have hj' : getAt (setAt s.getters i (GP.done id false)) j =
            some (GP.done rid true) := hj
        rw [getAt_setAt_ne _ hi] at hj'
        exact huniq j rid hj'
    · intro j rid w hj
      by_cases hi : i = j
      · subst hi
        have hj' : getAt (setAt s.getters i (GP.done id false)) i =
            some (GP.done rid w) := hj
        rw [getAt_setAt_self _ hg] at hj'
        injection hj' with h'
        exact ((GP.done.injEq _ _ _ _).mp h').1.symm
      · have hj' : getAt (setAt s.getters i (GP.done id false)) j =
            some (GP.done rid w) := hj
        rw [getAt_setAt_ne _ hi] at hj'
        exact hrd j rid w hj'

theorem invSF_step {s s' : MState} {e : MEv} (hr : s.removers = [])
    (hinv : InvSF s) (h : mstep s e = some s') :
    InvSF s' ∧ s'.removers = [] := by
  cases e with
  | fast i =>
      simp only [mstep] at h
      cases hg : getAt s.getters i with
      | none => rw [hg] at h; exact absurd h (by simp)
      | some g =>
          rw [hg] at h
          cases g with
          | start =>
              cases hb : s.bound with
              | none =>
                  rw [hb] at h
                  simp only [Option.some.injEq] at h
                  subst h
                  refine ⟨⟨?_, ?_⟩, hr⟩
                  · intro _
                    obtain ⟨hc, hall⟩ := hinv.1 hb
                    refine ⟨hc, ?_⟩
                    intro i' g' hg'
                    by_cases hi : i = i'
                    · subst hi
                      have hg'' : getAt (setAt s.getters i GP.miss) i = some g' := hg'
                      rw [getAt_setAt_self _ hg] at hg''
                      injection hg'' with h'
                      exact Or.inr h'.symm
                    · have hg'' : getAt (setAt s.getters i GP.miss) i' = some g' := hg'
                      rw [getAt_setAt_ne _ hi] at hg''
                      exact hall i' g' hg''
                  · intro e he
                    have he' : (none : Option Nat) = some e := he
                    cases he'
              | some id =>
                  rw [hb] at h
                  simp only [Option.some.injEq] at h
                  subst h
                  exact ⟨invSF_hit hg (Or.inl rfl) hb hinv _, hr⟩
          | miss => exact absurd h (by simp)
          | done rid w => exact absurd h (by simp)
  | slow i =>
      simp only [mstep] at h
      cases hg : getAt s.getters i with
      | none => rw [hg] at h; exact absurd h (by simp)
      | some g =>
          rw [hg] at h
          cases g with
          | start => exact absurd h (by simp)
          | done rid w => exact absurd h (by simp)
          | miss =>
              cases hb : s.bound with
              | some id =>
                  rw [hb] at h
                  simp only [Option.some.injEq] at h
                  subst h
                  exact ⟨invSF_hit hg (Or.inr rfl) hb hinv _, hr⟩
              | none =>
                  rw [hb] at h
                  simp only [Option.some.injEq] at h
                  subst h
                  obtain ⟨hc, hall⟩ := hinv.1 hb
                  refine ⟨⟨?_, ?_⟩, hr⟩
                  · intro hnone
                    have hnone' : (some s.nextId : Option Nat) = none := hnone
                    cases hnone'
                  · intro e he
                    have he' : (some s.nextId : Option Nat) = some e := he
                    injection he' with he''
                    subst he''
                    refine ⟨by rw [hc]; rfl, ⟨i, ?_, ?_⟩, ?_⟩
                    · exact getAt_setAt_self _ hg
                    · intro j rid hj
                      by_cases hi : i = j
                      · exact hi.symm
                      · have hj' : getAt (setAt s.getters i (GP.done s.nextId true)) j =
                            some (GP.done rid true) := hj
                        rw [getAt_setAt_ne _ hi] at hj'
                        rcases hall j _ hj' with h' | h' <;> cases h'
                    · intro j rid w hj
                      by_cases hi : i = j
                      · subst hi
                        have hj' : getAt (setAt s.getters i (GP.done s.nextId true)) i =
                            some (GP.done rid w) := hj
                        rw [getAt_setAt_self _ hg] at hj'
                        injection hj' with h'
                        exact ((GP.done.injEq _ _ _ _).mp h').1.symm
                      · have hj' : getAt (setAt s.getters i (GP.done s.nextId true)) j =
                            some (GP.done rid w) := hj
                        rw [getAt_setAt_ne _ hi] at hj'
                        rcases hall j _ hj' with h' | h' <;> cases h'
  | rem j =>
      simp only [mstep, hr, getAt] at h
      cases h
  | fin j =>
      simp only [mstep, hr, getAt] at h
      cases h
  | closeHandle id =>
      simp only [mstep] at h
      by_cases hgt : grpGet s.grp id > 0
      · rw [if_pos hgt] at h
        simp only [Option.some.injEq] at h
        subst h
        exact ⟨⟨hinv.1, hinv.2⟩, hr⟩
      · rw [if_neg hgt] at h
        cases h

theorem invSF_run {s s' : MState} {tr : List MEv} (hr : s.removers = [])
    (hinv : InvSF s) (h : mrun s tr = some s') :
    InvSF s' ∧ s'.removers = [] := by
  induction tr generalizing s with
  | nil => cases h; exact ⟨hinv, hr⟩
  | cons e rest ih =>
      simp only [mrun] at h
      cases hs : mstep s e with
      | none => rw [hs] at h; cases h
      | some s₁ =>
          rw [hs] at h
          obtain ⟨hinv₁, hr₁⟩ := invSF_step hr hinv hs
          exact ih hr₁ hinv₁ h

theorem mstep_getters_length {s s' : MState} {e : MEv} (h : mstep s e = some s') :
    s'.getters.length = s.getters.length := by
  cases e <;> simp only [mstep] at h <;> repeat' split at h
  all_goals cases h
  all_goals simp [setAt_length]

theorem mrun_getters_length {tr : List MEv} {s s' : MState}
    (h : mrun s tr = some s') : s'.getters.length = s.getters.length := by
  induction tr generalizing s with
  | nil => cases h; rfl
  | cons e rest ih =>
      simp only [mrun] at h
      cases hs : mstep s e with
      | none => rw [hs] at h; cases h
      | some s₁ =>
          rw [hs] at h
          exact (ih h).trans (mstep_getters_length hs)

/-- Claim C3. From a state where the key is absent, any interleaving of
`n` concurrent `Get` calls that all complete produces exactly one entry
(one binding, one element of `created`), exactly one getter holding the
writer, and every getter holding a reader on that single shared entry. -/
theorem single_flight (n : Nat) (tr : List MEv) (s : MState)
    (hn : 0 < n) (h : mrun (initGet n) tr = some s)
    (hdone : ∀ i g, getAt s.getters i = some g → ∃ rid w, g = GP.done rid w) :
    ∃ e, s.bound = some e ∧ s.created = [e] ∧
      (∃ i, getAt s.getters i = some (.done e true) ∧
        ∀ j rid, getAt s.getters j = some (.done rid true) → j = i) ∧
      ∀ j rid w, getAt s.getters j = some (.done rid w) → rid = e := by
  have hinv0 : InvSF (initGet n) := by
    constructor
    · intro _
      exact ⟨rfl, fun i g hg => Or.inl (getAt_replicate_start hg)⟩
    · intro e he
      cases he
  obtain ⟨hinv, -⟩ := invSF_run rfl hinv0 h
  have hlen : getAt s.getters 0 ≠ none := by
    have hglen : s.getters.length = n := by
      rw [mrun_getters_length h]
      simp [initGet]
    intro hc
    have : s.getters = [] := by
      cases hgl : s.getters with
      | nil => rfl
      | cons a l => rw [hgl] at hc; simp [getAt] at hc
    rw [this] at hglen
    simp at hglen
    omega
  cases hb : s.bound with
  | none =>
      cases hg0 : getAt s.getters 0 with
      | none => exact absurd hg0 hlen
      | some g =>
          obtain ⟨rid, w, hgw⟩ := hdone 0 g hg0
          rcases (hinv.1 hb).2 0 g hg0 with h' | h' <;> rw [h'] at hgw <;> cases hgw
  | some e =>
      obtain ⟨hc, hw, hrd⟩ := hinv.2 e hb
      exact ⟨e, rfl, hc, hw, hrd⟩

/-- Witness for C3: two getters interleaved fast/fast/slow/slow. -/
theorem single_flight_witness :
    ∃ e, (⟨some 0, 1, [0], [0], [(0, 3)],
        [GP.done 0 true, GP.done 0 false], []⟩ : MState).bound = some e ∧
      (⟨some 0, 1, [0], [0], [(0, 3)],
        [GP.done 0 true, GP.done 0 false], []⟩ : MState).created = [e] ∧
      (∃ i, getAt [GP.done 0 true, GP.done 0 false] i = some (.done e true) ∧
        ∀ j rid, getAt [GP.done 0 true, GP.done 0 false] j = some (.done rid true) → j = i) ∧
      ∀ j rid w, getAt [GP.done 0 true, GP.done 0 false] j = some (.done rid w) → rid = e := by
  have hdone : ∀ i g, getAt (⟨some 0, 1, [0], [0], [(0, 3)],
      [GP.done 0 true, GP.done 0 false], []⟩ : MState).getters i = some g →
      ∃ rid w, g = GP.done rid w := by
    intro i g hg
    match i, hg with
    | 0, hg => exact ⟨0, true, by injection hg with h'; exact h'.symm⟩
    | 1, hg => exact ⟨0, false, by injection hg with h'; exact h'.symm⟩
    | n + 2, hg => simp [getAt] at hg
  exact single_flight 2 [.fast 0, .fast 1, .slow 0, .slow 1]
    ⟨some 0, 1, [0], [0], [(0, 3)], [.done 0 true, .done 0 false], []⟩
    (by decide) (by decide) hdone

/-- Initial state for C4: entry `0` is bound with `k` outstanding
handles; `n` getters and `m` removers may run. -/
def initRem (n m k : Nat) : MState :=
  ⟨some 0, 1, [0], [0], [(0, k)], List.replicate n .start, List.replicate m .start⟩

/-- Reachability invariant for `Remove`: created ids are below `nextId`
(freshness), the bound id was created, and a remover waiting on an entry
has already removed that entry's binding (it can never be re-bound). -/
def InvRem (s : MState) : Prop :=
  (∀ id ∈ s.created, id < s.nextId) ∧
  (∀ id, s.bound = some id → id ∈ s.created) ∧
  (∀ j id, getAt s.removers j = some (.waiting id) →
      id ∈ s.created ∧ s.bound ≠ some id)

theorem invRem_bound_upd {s : MState} {id : Nat} (hb : s.bound = some id)
    (hinv : InvRem s) (g : List GP) (grp' : List (Nat × Nat)) :
    InvRem { s with bound := some id, getters := g, grp := grp' } := by
  obtain ⟨h1, h2, h3⟩ := hinv
  refine ⟨h1, ?_, ?_⟩
  · intro id' hid'
    have hid'' : (some id : Option Nat) = some id' := hid'
    injection hid'' with h'
    subst h'
    exact h2 id hb
  · intro j id' hw
    have hw' : getAt s.removers j = some (.waiting id') := hw
    refine ⟨(h3 j id' hw').1, ?_⟩
    intro hc
    have hc' : (some id : Option Nat) = some id' := hc
    injection hc' with h'
    exact (h3 j id' hw') |>.2 (h' ▸ hb)

theorem invRem_step {s s' : MState} {e : MEv}
    (hinv : InvRem s) (h : mstep s e = some s') : InvRem s' := by
  obtain ⟨h1, h2, h3⟩ := hinv
  cases e with
  | fast i =>
      simp only [mstep] at h
      cases hg : getAt s.getters i with
      | none => rw [hg] at h; exact absurd h (by simp)
      | some g =>
          rw [hg] at h
          cases g with
          | start =>
              cases hb : s.bound with
              | none =>
                  rw [hb] at h
                  simp only [Option.some.injEq] at h
                  subst h
                  refine ⟨h1, ?_, ?_⟩
                  · intro id hid
                    have hid' : (none : Option Nat) = some id := hid
                    cases hid'
                  · intro j id hw
                    have hw' : getAt s.removers j = some (.waiting id) := hw
                    exact ⟨(h3 j id hw').1, fun hc => by cases hc⟩
              | some id =>
                  rw [hb] at h
                  simp only [Option.some.injEq] at h
                  subst h
                  exact invRem_bound_upd hb ⟨h1, h2, h3⟩ _ _
          | miss => exact absurd h (by simp)
          | done rid w => exact absurd h (by simp)
  | slow i =>
      simp only [mstep] at h
      cases hg : getAt s.getters i with
      | none => rw [hg] at h; exact absurd h (by simp)
      | some g =>
          rw [hg] at h
          cases g with
          | start => exact absurd h (by simp)
          | done rid w => exact absurd h (by simp)
          | miss =>
              cases hb : s.bound with
              | some id =>
                  rw [hb] at h
                  simp only [Option.some.injEq] at h
                  subst h
                  exact invRem_bound_upd hb ⟨h1, h2, h3⟩ _ _
              | none =>
                  rw [hb] at h
                  simp only [Option.some.injEq] at h
                  subst h
                  refine ⟨?_, ?_, ?_⟩
                  · intro id hid
                    rcases List.mem_append.mp hid with h' | h'
                    · exact Nat.lt_succ_of_lt (h1 id h')
                    · rcases List.mem_singleton.mp h' with rfl
                      exact Nat.lt_succ_self _
                  · intro id hid
                    have hid' : (some s.nextId : Option Nat) = some id := hid
                    injection hid' with h'
                    subst h'
                    exact List.mem_append.mpr (Or.inr (List.mem_singleton.mpr rfl))
                  · intro j id hw
                    have hw' : getAt s.removers j = some (.waiting id) := hw
                    obtain ⟨hmem, -⟩ := h3 j id hw'
                    refine ⟨List.mem_append.mpr (Or.inl hmem), ?_⟩
                    intro hc
                    have hc' : (some s.nextId : Option Nat) = some id := hc
                    injection hc' with h'
                    exact absurd (h' ▸ h1 id hmem) (Nat.lt_irrefl _)
  | rem j =>
      simp only [mstep] at h
      cases hj : getAt s.removers j with
      | none => rw [hj] at h; exact absurd h (by simp)
      | some rp =>
          rw [hj] at h
          cases rp with
          | waiting id => exact absurd h (by simp)
          | done => exact absurd h (by simp)
          | start =>
              cases hb : s.bound with
              | some id =>
                  rw [hb] at h
                  simp only [Option.some.injEq] at h
                  subst h
                  refine ⟨h1, ?_, ?_⟩
                  · intro id' hid'
                    have hid'' : (none : Option Nat) = some id' := hid'
                    cases hid''
                  · intro j' id' hw
                    have hw' : getAt (setAt s.removers j (RP.waiting id)) j' =
                        some (.waiting id') := hw
                    by_cases hjj : j = j'
                    · subst hjj
                      rw [getAt_setAt_self _ hj] at hw'
                      injection hw' with h'
                      rcases (RP.waiting.injEq _ _).mp h' with rfl
                      exact ⟨h2 id hb, fun hc => by cases hc⟩
                    · rw [getAt_setAt_ne _ hjj] at hw'
                      exact ⟨(h3 j' id' hw').1, fun hc => by cases hc⟩
              | none =>
                  rw [hb] at h
                  simp only [Option.some.injEq] at h
                  subst h
                  refine ⟨h1, ?_, ?_⟩
                  · intro id' hid'
                    have hid'' : (none : Option Nat) = some id' := hid'
                    cases hid''
                  · intro j' id' hw
                    have hw' : getAt (setAt s.removers j RP.done) j' =
                        some (.waiting id') := hw
                    by_cases hjj : j = j'
                    · subst hjj
                      rw [getAt_setAt_self _ hj] at hw'
                      cases hw'
                    · rw [getAt_setAt_ne _ hjj] at hw'
                      refine ⟨(h3 j' id' hw').1, ?_⟩
                      intro hc
                      have hc' : (none : Option Nat) = some id' := hc
                      cases hc'
  | fin j =>
      simp only [mstep] at h
      cases hj : getAt s.removers j with
      | none => rw [hj] at h; exact absurd h (by simp)
      | some rp =>
          rw [hj] at h
          cases rp with
          | start => exact absurd h (by simp)
          | done => exact absurd h (by simp)
          | waiting id =>
              have h' : (if grpGet s.grp id = 0 then
                  some { s with storeIds := s.storeIds.erase id,
                                removers := setAt s.removers j .done }
                else none) = some s' := h
              by_cases hz : grpGet s.grp id = 0
              · rw [if_pos hz] at h'
                simp only [Option.some.injEq] at h'
                subst h'
                refine ⟨h1, h2, ?_⟩
                intro j' id' hw
                have hw' : getAt (setAt s.removers j RP.done) j' =
                    some (.waiting id') := hw
                by_cases hjj : j = j'
                · subst hjj
                  rw [getAt_setAt_self _ hj] at hw'
                  cases hw'
                · rw [getAt_setAt_ne _ hjj] at hw'
                  exact h3 j' id' hw'
              · rw [if_neg hz] at h'
                cases h'
  | closeHandle id =>
      simp only [mstep] at h
      by_cases hgt : grpGet s.grp id > 0
      · rw [if_pos hgt] at h
        simp only [Option.some.injEq] at h
        subst h
        exact ⟨h1, h2, h3⟩
      · rw [if_neg hgt] at h
        cases h

theorem invRem_run {s s' : MState} {tr : List MEv}
    (hinv : InvRem s) (h : mrun s tr = some s') : InvRem s' := by
  induction tr generalizing s with
  | nil => cases h; exact hinv
  | cons e rest ih =>
      simp only [mrun] at h
      cases hs : mstep s e with
      | none => rw [hs] at h; cases h
      | some s₁ =>
          rw [hs] at h
          exact ih (invRem_step hinv hs) h

/-- Claim C4. In any reachable state:
(a) the locked section of `Remove` deletes only the map binding — the
backend store, the counters and the entries are untouched;
(b) the backend delete of `Remove` fires only for a remover that has
already removed the binding (the entry is no longer bound) and only once
the entry's in-use group has drained to zero, and it erases exactly that
entry's backing object;
(c) a `Get` run entirely after the unbinding observes a miss and creates
a fresh entry: its id is new, distinct from every entry created before
(in particular from the removed one). -/
theorem remove_unbind_then_delete (n m k : Nat) (tr : List MEv) (s : MState)
    (h : mrun (initRem n m k) tr = some s) :
    (∀ j s', mstep s (.rem j) = some s' →
        s'.storeIds = s.storeIds ∧ s'.grp = s.grp ∧ s'.created = s.created ∧
          s'.getters = s.getters) ∧
    (∀ j s', mstep s (.fin j) = some s' →
        ∃ id, getAt s.removers j = some (.waiting id) ∧ grpGet s.grp id = 0 ∧
          s.bound ≠ some id ∧ s'.storeIds = s.storeIds.erase id) ∧
    (∀ i, s.bound = none → getAt s.getters i = some .start →
        ∃ s', mrun s [.fast i, .slow i] = some s' ∧
          getAt s'.getters i = some (.done s.nextId true) ∧
          s'.bound = some s.nextId ∧ s.nextId ∉ s.created) := by
  have hinv : InvRem s := by
    refine invRem_run ?_ h
    refine ⟨?_, ?_, ?_⟩
    · intro id hid
      rcases List.mem_singleton.mp hid with rfl
      exact Nat.lt_succ_self 0
    · intro id hid
      have hid' : (some 0 : Option Nat) = some id := hid
      injection hid' with h'
      subst h'
      exact List.mem_singleton.mpr rfl
    · intro j id hw
      have hw' := getAt_replicate_start hw
      cases hw'
  obtain ⟨h1, h2, h3⟩ := hinv
  refine ⟨?_, ?_, ?_⟩
  · intro j s' hs
    simp only [mstep] at hs
    cases hj : getAt s.removers j with
    | none => rw [hj] at hs; exact absurd hs (by simp)
    | some rp =>
        rw [hj] at hs
        cases rp with
        | waiting id => exact absurd hs (by simp)
        | done => exact absurd hs (by simp)
        | start =>
            cases hb : s.bound with
            | some id =>
                rw [hb] at hs
                simp only [Option.some.injEq] at hs
                subst hs
                exact ⟨rfl, rfl, rfl, rfl⟩
            | none =>
                rw [hb] at hs
                simp only [Option.some.injEq] at hs
                subst hs
                exact ⟨rfl, rfl, rfl, rfl⟩
  · intro j s' hs
    simp only [mstep] at hs
    cases hj : getAt s.removers j with
    | none => rw [hj] at hs; exact absurd hs (by simp)
    | some rp =>
        rw [hj] at hs
        cases rp with
        | start => exact absurd hs (by simp)
        | done => exact absurd hs (by simp)
        | waiting id =>
            have hs' : (if grpGet s.grp id = 0 then
                some { s with storeIds := s.storeIds.erase id,
                              removers := setAt s.removers j .done }
              else none) = some s' := hs
            by_cases hz : grpGet s.grp id = 0
            · rw [if_pos hz] at hs'
              simp only [Option.some.injEq] at hs'
              subst hs'
              exact ⟨id, rfl, hz, (h3 j id hj).2, rfl⟩
            · rw [if_neg hz] at hs'
              cases hs'
  · intro i hb hg
    refine ⟨{ s with bound := some s.nextId, nextId := s.nextId + 1,
                     created := s.created ++ [s.nextId],
                     storeIds := s.nextId :: s.storeIds,
                     grp := grpSet s.grp s.nextId 2,
                     getters := setAt (setAt s.getters i .miss) i
                       (.done s.nextId true) }, ?_, ?_, rfl, ?_⟩
    · simp only [mrun, mstep, hg, hb]
      rw [getAt_setAt_self GP.miss hg]
    · exact getAt_setAt_self _ (getAt_setAt_self GP.miss hg)
    · intro hc
      exact absurd (h1 s.nextId hc) (Nat.lt_irrefl _)

/-- Witness for C4: after one remover unbinds entry 0, a fresh `Get`
misses and creates the distinct entry 1. -/
theorem remove_unbind_then_delete_witness :
    ∃ s', mrun (⟨none, 1, [0], [0], [(0, 0)], [GP.start], [RP.waiting 0]⟩ : MState)
        [.fast 0, .slow 0] = some s' ∧
      getAt s'.getters 0 = some (.done 1 true) ∧ s'.bound = some 1 ∧
      (1 : Nat) ∉ ([0] : List Nat) := by
  have h := remove_unbind_then_delete 1 1 1 [.closeHandle 0, .rem 0]
      ⟨none, 1, [0], [0], [(0, 0)], [GP.start], [RP.waiting 0]⟩ (by decide)
  exact h.2.2 0 rfl rfl

/-! ## Streaming model (part_011 second document: `cachedFile.Write` /
`cachedFile.Close` / `cacheReader.Read`; part_002: broadcaster)

One entry's byte stream.  `cachedFile.Write` appends under the exclusive
lock and broadcasts; `cachedFile.Close` closes the broadcaster.  Each
reader handle (`f.next()` → `cacheReader`) opens the backing object
afresh with its own cursor.  `cacheReader.Read` loops: read the backing
object under the shared lock; while the broadcaster is open return data
if any, wait at end-of-buffer and retry; once the broadcaster is closed
return the backing read as-is (end-of-file there is final).  A completed
`Read` call is linearised at its last backing read, so its one step is:
enabled when data is available or the broadcaster is closed (otherwise
the reader is parked in `b.Wait()`), returning `min m (len-cursor)`
bytes when the cursor is short of the content, end-of-file when closed
at the end.  Reads with a zero-length buffer are excluded (with the
broadcaster open the Go loop would spin forever on them). -/

structure RState where
  /-- offset of this reader's backing file handle. -/
  cursor : Nat
  /-- bytes this reader has received so far. -/
  out : List Nat
  /-- whether this reader has observed the final end-of-file. -/
  sawEOF : Bool
deriving DecidableEq, Repr

structure SState where
  /-- bytes written to the backing object so far. -/
  content : List Nat
  /-- whether the broadcaster has been closed (`cachedFile.Close`). -/
  closed : Bool
  /-- the reader handles issued so far. -/
  readers : List RState
deriving DecidableEq, Repr

inductive SEv where
  /-- Go `cachedFile.Write(chunk)` by the writer. -/
  | write (chunk : List Nat)
  /-- Go `cachedFile.Close()` by the writer. -/
  | closeW
  /-- a new reader handle is issued (`f.next()` from some `Get`). -/
  | newReader
  /-- reader `i` completes a `cacheReader.Read` with an `m`-byte buffer. -/
  | read (i : Nat) (m : Nat)
deriving DecidableEq, Repr

/-- Reader `r` after receiving the available data (at most `m` bytes). -/
def recvData (content : List Nat) (r : RState) (m : Nat) : RState :=
  ⟨r.cursor + ((content.drop r.cursor).take m).length,
   r.out ++ (content.drop r.cursor).take m, r.sawEOF⟩

def sstep (s : SState) (e : SEv) : Option SState :=
  match e with
  | .write chunk =>
      if s.closed then none else some { s with content := s.content ++ chunk }
  | .closeW =>
      if s.closed then none else some { s with closed := true }
  | .newReader => some { s with readers := s.readers ++ [⟨0, [], false⟩] }
  | .read i m =>
      if m = 0 then none
      else
        (getAt s.readers i).bind (fun r =>
          if r.cursor < s.content.length then
            some { s with readers := setAt s.readers i (recvData s.content r m) }
          else if s.closed then
            some { s with readers := setAt s.readers i ⟨r.cursor, r.out, true⟩ }
          else none)

def srun (s : SState) : List SEv → Option SState
  | [] => some s
  | e :: tr =>
      match sstep s e with
      | some s' => srun s' tr
      | none => none

/-- Concatenation of the chunks written along a trace (the payload P). -/
def writtenBytes : List SEv → List Nat
  | [] => []
  | .write chunk :: tr => chunk ++ writtenBytes tr
  | .closeW :: tr => writtenBytes tr
  | .newReader :: tr => writtenBytes tr
  | .read _ _ :: tr => writtenBytes tr

def initStream : SState := ⟨[], false, []⟩

theorem getAt_append_elem {l : List α} {x : α} {i : Nat} {r : α}
    (h : getAt (l ++ [x]) i = some r) : getAt l i = some r ∨ r = x := by
  induction l generalizing i with
  | nil =>
      cases i with
      | zero => exact Or.inr (by injection h with h'; exact h'.symm)
      | succ n => simp [getAt] at h
  | cons b rest ih =>
      cases i with
      | zero => exact Or.inl h
      | succ n => exact ih h

/-- Forward rule: a read completing with data available. -/
theorem sstep_read_data {s : SState} {i m : Nat} {r : RState} (hm : m ≠ 0)
    (hr : getAt s.readers i = some r) (hlt : r.cursor < s.content.length) :
    sstep s (.read i m) =
      some { s with readers := setAt s.readers i (recvData s.content r m) } := by
  simp only [sstep]
  rw [if_neg hm, hr]
  show (if r.cursor < s.content.length then _ else _) = _
  rw [if_pos hlt]

/-- Forward rule: a read completing with end-of-file after writer close. -/
theorem sstep_read_eof {s : SState} {i m : Nat} {r : RState} (hm : m ≠ 0)
    (hr : getAt s.readers i = some r) (hge : ¬ r.cursor < s.content.length)
    (hc : s.closed = true) :
    sstep s (.read i m) =
      some { s with readers := setAt s.readers i ⟨r.cursor, r.out, true⟩ } := by
  simp only [sstep]
  rw [if_neg hm, hr]
  show (if r.cursor < s.content.length then _ else _) = _
  rw [if_neg hge, if_pos hc]

/-- Inversion of a successful read step. -/
theorem sstep_read_inv {s s' : SState} {i m : Nat}
    (h : sstep s (.read i m) = some s') :
    ∃ r, getAt s.readers i = some r ∧ m ≠ 0 ∧
      ((r.cursor < s.content.length ∧
          s' = { s with readers := setAt s.readers i (recvData s.content r m) }) ∨
       (¬ r.cursor < s.content.length ∧ s.closed = true ∧
          s' = { s with readers := setAt s.readers i ⟨r.cursor, r.out, true⟩ })) := by
  simp only [sstep] at h
  by_cases hm : m = 0
  · rw [if_pos hm] at h; cases h
  · rw [if_neg hm] at h
    cases hj : getAt s.readers i with
    | none => rw [hj] at h; cases h
    | some r =>
        rw [hj] at h
        have h' : (if r.cursor < s.content.length then
            some { s with readers := setAt s.readers i (recvData s.content r m) }
          else if s.closed then
            some { s with readers := setAt s.readers i ⟨r.cursor, r.out, true⟩ }
          else none) = some s' := h
        by_cases hlt : r.cursor < s.content.length
        · rw [if_pos hlt] at h'
          injection h' with h''
          exact ⟨r, rfl, hm, Or.inl ⟨hlt, h''.symm⟩⟩
        · rw [if_neg hlt] at h'
          by_cases hc : s.closed
          · rw [if_pos hc] at h'
            injection h' with h''
            exact ⟨r, rfl, hm, Or.inr ⟨hlt, hc, h''.symm⟩⟩
          · rw [if_neg hc] at h'; cases h'

/-- Per-reader invariant: the bytes a reader received are exactly the
prefix of the written content below its cursor; the cursor never passes
the content; end-of-file is observed only after writer close and only at
the end of the frozen content. -/
def InvStream (s : SState) : Prop :=
  ∀ i r, getAt s.readers i = some r →
    r.out = s.content.take r.cursor ∧ r.cursor ≤ s.content.length ∧
      (r.sawEOF = true → s.closed = true ∧ r.cursor = s.content.length)

theorem invStream_step {s s' : SState} {e : SEv}
    (hinv : InvStream s) (h : sstep s e = some s') : InvStream s' := by
  cases e with
  | write chunk =>
      simp only [sstep] at h
      by_cases hc : s.closed
      · rw [if_pos hc] at h; cases h
      · rw [if_neg hc] at h
        simp only [Option.some.injEq] at h
        subst h
        intro i r hr
        have hr' : getAt s.readers i = some r := hr
        obtain ⟨hout, hle, heof⟩ := hinv i r hr'
        refine ⟨?_, ?_, ?_⟩
        · show r.out = (s.content ++ chunk).take r.cursor
          rw [List.take_append_of_le_length hle]
          exact hout
        · show r.cursor ≤ (s.content ++ chunk).length
          simp only [List.length_append]
          omega
        · intro he
          exact absurd (heof he).1 (by simpa using hc)
  | closeW =>
      simp only [sstep] at h
      by_cases hc : s.closed
      · rw [if_pos hc] at h; cases h
      · rw [if_neg hc] at h
        simp only [Option.some.injEq] at h
        subst h
        intro i r hr
        have hr' : getAt s.readers i = some r := hr
        obtain ⟨hout, hle, heof⟩ := hinv i r hr'
        exact ⟨hout, hle, fun he => absurd (heof he).1 (by simpa using hc)⟩
  | newReader =>
      simp only [sstep, Option.some.injEq] at h
      subst h
      intro i r hr
      have hr' : getAt (s.readers ++ [⟨0, [], false⟩]) i = some r := hr
      rcases getAt_append_elem hr' with h' | h'
      · exact hinv i r h'
      · subst h'
        exact ⟨rfl, Nat.zero_le _, fun he => by cases he⟩
  | read j m =>
      obtain ⟨rj, hj, hm, hcase⟩ := sstep_read_inv h
      obtain ⟨hout, hle, heof⟩ := hinv j rj hj
      rcases hcase with ⟨hlt, rfl⟩ | ⟨hge, hc, rfl⟩
      · intro i r hr
        have hr' : getAt (setAt s.readers j (recvData s.content rj m)) i =
            some r := hr
        by_cases hij : j = i
        · subst hij
          rw [getAt_setAt_self _ hj] at hr'
          injection hr' with h'
          subst h'
          have hlen : ((s.content.drop rj.cursor).take m).length =
              min m (s.content.length - rj.cursor) := by
            simp [List.length_take, List.length_drop]
          refine ⟨?_, ?_, ?_⟩
          · show rj.out ++ (s.content.drop rj.cursor).take m =
              s.content.take (rj.cursor + ((s.content.drop rj.cursor).take m).length)
            rw [List.take_add, hout]
            congr 1
            rw [hlen]
            rw [List.take_eq_take]
            simp only [List.length_drop]
            omega
          · show rj.cursor + ((s.content.drop rj.cursor).take m).length ≤
              s.content.length
            rw [hlen]
            omega
          · intro he
            have he' : rj.sawEOF = true := he
            exact absurd (heof he').2 (by omega)
        · rw [getAt_setAt_ne _ hij] at hr'
          exact hinv i r hr'
      · intro i r hr
        have hr' : getAt (setAt s.readers j ⟨rj.cursor, rj.out, true⟩) i =
            some r := hr
        by_cases hij : j = i
        · subst hij
          rw [getAt_setAt_self _ hj] at hr'
          injection hr' with h'
          subst h'
          refine ⟨hout, hle, fun _ => ⟨hc, ?_⟩⟩
          show rj.cursor = s.content.length
          omega
        · rw [getAt_setAt_ne _ hij] at hr'
          exact hinv i r hr'

theorem invStream_run {s s' : SState} {tr : List SEv}
    (hinv : InvStream s) (h : srun s tr = some s') : InvStream s' := by
  induction tr generalizing s with
  | nil => cases h; exact hinv
  | cons e rest ih =>
      simp only [srun] at h
      cases hs : sstep s e with
      | none => rw [hs] at h; cases h
      | some s₁ =>
          rw [hs] at h
          exact ih (invStream_step hinv hs) h

/-- Along a valid trace the backing content is the initial content
followed by every written chunk in order. -/
theorem srun_content {s s' : SState} {tr : List SEv}
    (h : srun s tr = some s') : s'.content = s.content ++ writtenBytes tr := by
  induction tr generalizing s with
  | nil => cases h; simp [writtenBytes]
  | cons e rest ih =>
      simp only [srun] at h
      cases hs : sstep s e with
      | none => rw [hs] at h; cases h
      | some s₁ =>
          rw [hs] at h
          have h₁ : s₁.content = s₁.content := rfl
          cases e with
          | write chunk =>
              simp only [sstep] at hs
              by_cases hc : s.closed
              · rw [if_pos hc] at hs; cases hs
              · rw [if_neg hc] at hs
                simp only [Option.some.injEq] at hs
                subst hs
                rw [ih h]
                simp [writtenBytes, List.append_assoc]
          | closeW =>
              simp only [sstep] at hs
              by_cases hc : s.closed
              · rw [if_pos hc] at hs; cases hs
              · rw [if_neg hc] at hs
                simp only [Option.some.injEq] at hs
                subst hs
                rw [ih h]
                simp [writtenBytes]
          | newReader =>
              simp only [sstep, Option.some.injEq] at hs
              subst hs
              rw [ih h]
              simp [writtenBytes]
          | read i m =>
              have hcontent : s₁.content = s.content := by
                obtain ⟨rj, hj, hm, hcase⟩ := sstep_read_inv hs
                rcases hcase with ⟨-, rfl⟩ | ⟨-, -, rfl⟩ <;> rfl
              rw [ih h, hcontent]
              simp [writtenBytes]

/-- The broadcaster never reopens: once closed, always closed. -/
theorem sstep_closed_mono {s s' : SState} {e : SEv}
    (hc : s.closed = true) (h : sstep s e = some s') : s'.closed = true := by
  cases e with
  | write chunk => simp [sstep, hc] at h
  | closeW => simp [sstep, hc] at h
  | newReader =>
      simp only [sstep, Option.some.injEq] at h
      subst h; exact hc
  | read i m =>
      obtain ⟨rj, hj, hm, hcase⟩ := sstep_read_inv h
      rcases hcase with ⟨-, rfl⟩ | ⟨-, -, rfl⟩ <;> exact hc

/-- After writer close a reader `n` bytes short of the end reaches
end-of-file in `n + 1` one-byte reads, having received the whole
content. -/
theorem read_progress_aux (n : Nat) :
    ∀ (s : SState) (r : RState) (i : Nat), s.closed = true → InvStream s →
      getAt s.readers i = some r → s.content.length - r.cursor = n →
      ∃ s', srun s (List.replicate (n + 1) (.read i 1)) = some s' ∧
        ∃ r', getAt s'.readers i = some r' ∧ r'.sawEOF = true ∧
          r'.out = s.content := by
  induction n with
  | zero =>
      intro s r i hc hinv hr hn
      obtain ⟨hout, hle, -⟩ := hinv i r hr
      have hge : ¬ r.cursor < s.content.length := by omega
      have hcur : r.cursor = s.content.length := by omega
      have hstep := sstep_read_eof (by omega : (1 : Nat) ≠ 0) hr hge hc
      refine ⟨{ s with readers := setAt s.readers i ⟨r.cursor, r.out, true⟩ },
        ?_, ⟨r.cursor, r.out, true⟩, getAt_setAt_self _ hr, rfl, ?_⟩
      · simp only [List.replicate, srun, hstep]
      · show r.out = s.content
        rw [hout, hcur, List.take_length]
  | succ n ih =>
      intro s r i hc hinv hr hn
      obtain ⟨hout, hle, -⟩ := hinv i r hr
      have hlt : r.cursor < s.content.length := by omega
      have hstep := sstep_read_data (by omega : (1 : Nat) ≠ 0) hr hlt
      have hchunk : ((s.content.drop r.cursor).take 1).length = 1 := by
        simp only [List.length_take, List.length_drop]
        omega
      have hr₁ : getAt ({ s with readers := setAt s.readers i (recvData s.content r 1) } : SState).readers i = some (recvData s.content r 1) := getAt_setAt_self _ hr
      have hinv₁ : InvStream { s with readers := setAt s.readers i (recvData s.content r 1) } := invStream_step hinv hstep
      have hn₁ : ({ s with readers := setAt s.readers i (recvData s.content r 1) } : SState).content.length - (recvData s.content r 1).cursor = n := by
        show s.content.length -
          (r.cursor + ((s.content.drop r.cursor).take 1).length) = n
        rw [hchunk]; omega
      obtain ⟨s', hs', r', hr', heof', hout'⟩ :=
        ih { s with readers := setAt s.readers i (recvData s.content r 1) }
          (recvData s.content r 1) i hc hinv₁ hr₁ hn₁
      refine ⟨s', ?_, r', hr', heof', hout'⟩
      rw [List.replicate_succ]
      simp only [srun, hstep]
      exact hs'

/-- Claim C1. If the writer writes payload P (as any sequence of chunks)
and closes, every reader handle — opened at any point, reading
concurrently with the writes or afterwards — reads exactly the bytes of
P followed by end-of-file: any reader that has observed end-of-file has
received exactly P, and once the writer has closed every reader can be
driven to end-of-file, receiving exactly P in total. -/
theorem reader_reads_exactly_payload (tr : List SEv) (s : SState)
    (h : srun initStream tr = some s) (i : Nat) (r : RState)
    (hr : getAt s.readers i = some r) :
    (r.sawEOF = true → r.out = writtenBytes tr) ∧
    (s.closed = true →
      ∃ s', srun s (List.replicate (s.content.length - r.cursor + 1) (.read i 1)) =
          some s' ∧
        ∃ r', getAt s'.readers i = some r' ∧ r'.sawEOF = true ∧
          r'.out = writtenBytes tr) := by
  have hinv : InvStream s := invStream_run (fun i r hr => by cases i <;> cases hr) h
  have hcontent : s.content = writtenBytes tr := by
    have := srun_content h
    simpa [initStream] using this
  constructor
  · intro he
    obtain ⟨hout, -, heof⟩ := hinv i r hr
    rw [hout, (heof he).2, List.take_length, hcontent]
  · intro hc
    obtain ⟨s', hs', r', hr', heof', hout'⟩ :=
      read_progress_aux (s.content.length - r.cursor) s r i hc hinv hr rfl
    exact ⟨s', hs', r', hr', heof', by rw [hout', hcontent]⟩

/-- Witness for C1: the writer writes `[1,2]` and closes; a reader that
consumed data while the stream was open and one opened after the close
both end at end-of-file having read exactly `[1,2]`. -/
theorem reader_reads_exactly_payload_witness :
    (⟨2, [1, 2], true⟩ : RState).out = writtenBytes
      [.newReader, .write [1, 2], .read 0 5, .closeW, .newReader,
       .read 1 5, .read 1 5, .read 0 5] := by
  have h := reader_reads_exactly_payload
    [.newReader, .write [1, 2], .read 0 5, .closeW, .newReader,
     .read 1 5, .read 1 5, .read 0 5]
    ⟨[1, 2], true, [⟨2, [1, 2], true⟩, ⟨2, [1, 2], true⟩]⟩ (by decide)
    0 ⟨2, [1, 2], true⟩ (by decide)
  exact h.1 rfl

/-! ## Janitor model (janitor.go, first document: `janitor.Scrub` /
`janitor.removeFirst`)

One scrub pass over the cache.  An entry contributes its key, its size
(`c.Size(f.Name())`, taken as stable and available) and its last-read
time (`c.AccessTimes(f.Name())`, taken as available); `f.InUse()`
entries are skipped during enumeration.  `sort.Slice` guarantees any
ascending-by-`lastRead` permutation (ties in unspecified order); the
embedding uses insertion sort, one such outcome.  Both eviction loops
pop the head via `removeFirst`, which panics on an empty slice (`none`
below); the count/size bookkeeping keeps that unreachable. -/

structure JEntry where
  key : String
  size : Nat
  lastRead : Nat
  inUse : Bool
deriving DecidableEq, Repr

def sumSizes (l : List JEntry) : Nat := (l.map (·.size)).sum

/-- Comparison used by the sort: ascending last-read time. -/
def leLR (a b : JEntry) : Prop := a.lastRead ≤ b.lastRead

instance : DecidableRel leLR := fun _ _ => Nat.decLe _ _

instance : IsTotal JEntry leLR := ⟨fun _ _ => Nat.le_total _ _⟩

instance : IsTrans JEntry leLR := ⟨fun _ _ _ => Nat.le_trans⟩

def sortLR (l : List JEntry) : List JEntry := l.insertionSort leLR

/-- Go `janitor.removeFirst`: pop the head, decrement the running count,
subtract the popped entry's size.  Popping an empty slice panics. -/
def removeFirst (items : List JEntry) (count size : Nat) :
    Option (String × List JEntry × Nat × Nat) :=
  match items with
  | [] => none
  | f :: rest => some (f.key, rest, count - 1, size - f.size)

/-- The `maxItems` loop of `janitor.Scrub`: while `count > maxItems`,
evict the head. -/
def itemsLoop (maxItems : Nat) (items : List JEntry) (count size : Nat)
    (acc : List String) : Option (List String × List JEntry × Nat × Nat) :=
  if count > maxItems then
    match items with
    | [] => none
    | f :: rest => itemsLoop maxItems rest (count - 1) (size - f.size) (acc ++ [f.key])
  else some (acc, items, count, size)
termination_by items.length
decreasing_by simp [*]

/-- The `maxSize` loop of `janitor.Scrub`: while `size > maxSize`,
evict the head. -/
def sizeLoop (maxSize : Nat) (items : List JEntry) (count size : Nat)
    (acc : List String) : Option (List String × List JEntry × Nat × Nat) :=
  if size > maxSize then
    match items with
    | [] => none
    | f :: rest => sizeLoop maxSize rest (count - 1) (size - f.size) (acc ++ [f.key])
  else some (acc, items, count, size)
termination_by items.length
decreasing_by simp [*]

/-- The loops are the source's `removeFirst` iteration. -/
theorem itemsLoop_eq_removeFirst (maxItems : Nat) (items : List JEntry)
    (count size : Nat) (acc : List String) :
    itemsLoop maxItems items count size acc =
      if count > maxItems then
        match removeFirst items count size with
        | none => none
        | some (k, rest, count', size') =>
            itemsLoop maxItems rest count' size' (acc ++ [k])
      else some (acc, items, count, size) := by
  cases items <;> rw [itemsLoop] <;> rfl

theorem sizeLoop_eq_removeFirst (maxSize : Nat) (items : List JEntry)
    (count size : Nat) (acc : List String) :
    sizeLoop maxSize items count size acc =
      if size > maxSize then
        match removeFirst items count size with
        | none => none
        | some (k, rest, count', size') =>
            sizeLoop maxSize rest count' size' (acc ++ [k])
      else some (acc, items, count, size) := by
  cases items <;> rw [sizeLoop] <;> rfl

/-- The `if j.maxItems > 0` guard around the first loop of `Scrub`. -/
def itemsPhase (maxItems : Nat) (sorted : List JEntry) (count size : Nat) :
    Option (List String × List JEntry × Nat × Nat) :=
  if maxItems > 0 then itemsLoop maxItems sorted count size []
  else some ([], sorted, count, size)

/-- The `if j.maxSize > 0` guard around the second loop of `Scrub`. -/
def sizePhase (maxSize : Nat) (p : List String × List JEntry × Nat × Nat) :
    Option (List String × List JEntry × Nat × Nat) :=
  if maxSize > 0 then sizeLoop maxSize p.2.1 p.2.2.1 p.2.2.2 p.1
  else some p

/-- Go `janitor.Scrub` (janitor.go, first document, lines 48–118):
enumerate skipping in-use entries, record sizes and last-read times,
sort ascending by last-read, then run the two eviction loops (each
disabled when its limit is zero), accumulating the evicted keys. -/
def scrub (maxItems : Nat) (maxSize : Nat) (entries : List JEntry) :
    Option (List String) :=
  let ok := entries.filter (fun f => !f.inUse)
  ((itemsPhase maxItems (sortLR ok) ok.length (sumSizes ok)).bind
    (sizePhase maxSize)).bind (fun p => some p.1)

theorem sumSizes_cons (f : JEntry) (rest : List JEntry) :
    sumSizes (f :: rest) = f.size + sumSizes rest := by
  simp [sumSizes]

theorem itemsPhase_pos {maxItems : Nat} (hmi : maxItems > 0)
    (sorted : List JEntry) (count size : Nat) :
    itemsPhase maxItems sorted count size =
      itemsLoop maxItems sorted count size [] := by
  rw [itemsPhase, if_pos hmi]

theorem sizePhase_pos {maxSize : Nat} (hms : maxSize > 0)
    (p : List String × List JEntry × Nat × Nat) :
    sizePhase maxSize p = sizeLoop maxSize p.2.1 p.2.2.1 p.2.2.2 p.1 := by
  rw [sizePhase, if_pos hms]

/-- Exact behaviour of the `maxItems` loop when count and size agree
with the item list: it pops exactly down to the limit. -/
theorem itemsLoop_spec (maxItems : Nat) (items : List JEntry) (acc : List String) :
    itemsLoop maxItems items items.length (sumSizes items) acc =
      some (acc ++ ((items.take (items.length - min items.length maxItems)).map (·.key)),
        items.drop (items.length - min items.length maxItems),
        min items.length maxItems,
        sumSizes (items.drop (items.length - min items.length maxItems))) := by
  induction items generalizing acc with
  | nil =>
      rw [itemsLoop]
      simp
  | cons f rest ih =>
      rw [itemsLoop]
      by_cases hgt : (f :: rest).length > maxItems
      · rw [if_pos hgt]
        simp only [List.length_cons] at hgt
        have hrest : rest.length ≥ maxItems := by omega
        have h1 : (f :: rest).length - 1 = rest.length := by simp
        have h2 : sumSizes (f :: rest) - f.size = sumSizes rest := by
          rw [sumSizes_cons]; omega
        rw [h1, h2, ih]
        have hmin : min rest.length maxItems = maxItems := by omega
        have hmin' : min (f :: rest).length maxItems = maxItems := by
          simp only [List.length_cons]; omega
        rw [hmin, hmin']
        have hidx : (f :: rest).length - maxItems = (rest.length - maxItems) + 1 := by
          simp only [List.length_cons]
          omega
        rw [hidx]
        simp [List.take_succ_cons, List.drop_succ_cons, List.append_assoc]
      · rw [if_neg hgt]
        simp only [List.length_cons, gt_iff_lt, not_lt] at hgt
        have hmin : min (f :: rest).length maxItems = (f :: rest).length := by
          simp only [List.length_cons]; omega
        rw [hmin]
        simp

/-- Exact behaviour of the `maxSize` loop: it pops the minimal number of
head entries that brings the cumulative size within the limit. -/
theorem sizeLoop_spec (maxSize : Nat) (items : List JEntry) (acc : List String) :
    ∃ j, sizeLoop maxSize items items.length (sumSizes items) acc =
        some (acc ++ ((items.take j).map (·.key)), items.drop j,
          (items.drop j).length, sumSizes (items.drop j)) ∧
      sumSizes (items.drop j) ≤ maxSize ∧
      ∀ j' < j, maxSize < sumSizes (items.drop j') := by
  induction items generalizing acc with
  | nil =>
      refine ⟨0, ?_, ?_, ?_⟩
      · rw [sizeLoop]; simp [sumSizes]
      · simp [sumSizes]
      · omega
  | cons f rest ih =>
      by_cases hgt : sumSizes (f :: rest) > maxSize
      · obtain ⟨j, hrun, hle, hmin⟩ := ih (acc ++ [f.key])
        refine ⟨j + 1, ?_, ?_, ?_⟩
        · rw [sizeLoop, if_pos hgt]
          have h1 : (f :: rest).length - 1 = rest.length := by simp
          have h2 : sumSizes (f :: rest) - f.size = sumSizes rest := by
            rw [sumSizes_cons]; omega
          rw [h1, h2, hrun]
          simp [List.take_succ_cons, List.drop_succ_cons, List.append_assoc]
        · simpa [List.drop_succ_cons] using hle
        · intro j' hj'
          cases j' with
          | zero => simpa using hgt
          | succ j'' =>
              have := hmin j'' (by omega)
              simpa [List.drop_succ_cons] using this
      · refine ⟨0, ?_, ?_, ?_⟩
        · rw [sizeLoop, if_neg hgt]
          simp
        · simp only [List.drop_zero]
          omega
        · omega

/-- Keys taken from the head of the sorted ok-list belong to entries
that are present and not in use. -/
theorem take_sorted_keys_ok (entries : List JEntry) (k : Nat) :
    ∀ kk ∈ ((sortLR (entries.filter (fun f => !f.inUse))).take k).map (·.key),
      ∃ e ∈ entries, e.key = kk ∧ e.inUse = false := by
  intro kk hkk
  rw [List.mem_map] at hkk
  obtain ⟨e, he, rfl⟩ := hkk
  have he1 : e ∈ sortLR (entries.filter (fun f => !f.inUse)) :=
    List.take_subset _ _ he
  have hperm : (sortLR (entries.filter (fun f => !f.inUse))).Perm
      (entries.filter (fun f => !f.inUse)) := List.perm_insertionSort leLR _
  have he2 := hperm.mem_iff.mp he1
  rw [List.mem_filter] at he2
  exact ⟨e, he2.1, rfl, by simpa using he2.2⟩

/-- Claim C6. A janitor pass enumerates entries skipping those in use,
records each remaining entry's size and last-read time, sorts the
collected list ascending by last-read time, and evicts repeatedly from
the head: the pass completes without panic, the evicted keys are (in
order) the first `k` of the sorted not-in-use list for some `k`, only
not-in-use entries are evicted, when `maxItems > 0` the remaining count
is within the limit, when `maxSize > 0` the remaining cumulative size is
within the limit, a zero limit disables that check (both zero evicts
nothing; `maxSize = 0` leaves exactly the count check, which evicts
exactly down to `maxItems`). -/
theorem janitor_scrub_lru (maxItems maxSize : Nat) (entries : List JEntry) :
    ∃ keys k,
      scrub maxItems maxSize entries = some keys ∧
      List.Sorted leLR (sortLR (entries.filter (fun f => !f.inUse))) ∧
      (sortLR (entries.filter (fun f => !f.inUse))).Perm
        (entries.filter (fun f => !f.inUse)) ∧
      keys = ((sortLR (entries.filter (fun f => !f.inUse))).take k).map (·.key) ∧
      (∀ kk ∈ keys, ∃ e ∈ entries, e.key = kk ∧ e.inUse = false) ∧
      (maxItems > 0 →
        (sortLR (entries.filter (fun f => !f.inUse))).length - k ≤ maxItems) ∧
      (maxSize > 0 →
        sumSizes ((sortLR (entries.filter (fun f => !f.inUse))).drop k) ≤ maxSize) ∧
      (maxItems = 0 ∧ maxSize = 0 → keys = []) ∧
      (maxItems > 0 ∧ maxSize = 0 →
        k = (sortLR (entries.filter (fun f => !f.inUse))).length -
          min (sortLR (entries.filter (fun f => !f.inUse))).length maxItems) := by
  have hperm : (sortLR (entries.filter (fun f => !f.inUse))).Perm
      (entries.filter (fun f => !f.inUse)) := List.perm_insertionSort leLR _
  have hsorted : List.Sorted leLR (sortLR (entries.filter (fun f => !f.inUse))) :=
    List.sorted_insertionSort leLR _
  have hlen : (entries.filter (fun f => !f.inUse)).length =
      (sortLR (entries.filter (fun f => !f.inUse))).length := hperm.length_eq.symm
  have hsum : sumSizes (entries.filter (fun f => !f.inUse)) =
      sumSizes (sortLR (entries.filter (fun f => !f.inUse))) := by
    unfold sumSizes
    exact (List.Perm.sum_eq (hperm.map (·.size))).symm
  rcases Nat.eq_zero_or_pos maxItems with hmi | hmi
  · subst hmi
    rcases Nat.eq_zero_or_pos maxSize with hms | hms
    · subst hms
      refine ⟨[], 0, ?_, hsorted, hperm, by simp, by simp, by omega, by omega,
        fun _ => rfl, by omega⟩
      simp [scrub, itemsPhase, sizePhase]
    · obtain ⟨j, hrun, hle2, -⟩ :=
        sizeLoop_spec maxSize (sortLR (entries.filter (fun f => !f.inUse))) []
      refine ⟨((sortLR (entries.filter (fun f => !f.inUse))).take j).map (·.key),
        j, ?_, hsorted, hperm, rfl, take_sorted_keys_ok entries j,
        by omega, fun _ => hle2, by omega, by omega⟩
      simp only [scrub]
      have hp1 : itemsPhase 0 (sortLR (entries.filter (fun f => !f.inUse)))
          (entries.filter (fun f => !f.inUse)).length
          (sumSizes (entries.filter (fun f => !f.inUse))) =
          some ([], sortLR (entries.filter (fun f => !f.inUse)),
            (entries.filter (fun f => !f.inUse)).length,
            sumSizes (entries.filter (fun f => !f.inUse))) := by
        simp [itemsPhase]
      rw [hp1, Option.some_bind, sizePhase_pos hms]
      dsimp only
      rw [hlen, hsum, hrun, Option.some_bind]
      simp
  · rcases Nat.eq_zero_or_pos maxSize with hms | hms
    · subst hms
      refine ⟨((sortLR (entries.filter (fun f => !f.inUse))).take
          ((sortLR (entries.filter (fun f => !f.inUse))).length -
            min (sortLR (entries.filter (fun f => !f.inUse))).length maxItems)).map
          (·.key),
        (sortLR (entries.filter (fun f => !f.inUse))).length -
          min (sortLR (entries.filter (fun f => !f.inUse))).length maxItems,
        ?_, hsorted, hperm, rfl, take_sorted_keys_ok entries _,
        fun _ => by omega, by omega, by omega, fun _ => rfl⟩
      simp only [scrub]
      rw [itemsPhase_pos hmi, hlen, hsum, itemsLoop_spec, Option.some_bind]
      have hp2 : ∀ p : List String × List JEntry × Nat × Nat, sizePhase 0 p = some p := by
        intro p
        simp [sizePhase]
      rw [hp2, Option.some_bind]
      simp
    · obtain ⟨j, hrun, hle2, -⟩ := sizeLoop_spec maxSize
        ((sortLR (entries.filter (fun f => !f.inUse))).drop
          ((sortLR (entries.filter (fun f => !f.inUse))).length -
            min (sortLR (entries.filter (fun f => !f.inUse))).length maxItems))
        (([] : List String) ++
          (((sortLR (entries.filter (fun f => !f.inUse))).take
            ((sortLR (entries.filter (fun f => !f.inUse))).length -
              min (sortLR (entries.filter (fun f => !f.inUse))).length maxItems)).map
            (·.key)))
      refine ⟨_, ((sortLR (entries.filter (fun f => !f.inUse))).length -
          min (sortLR (entries.filter (fun f => !f.inUse))).length maxItems) + j,
        ?_, hsorted, hperm, rfl, take_sorted_keys_ok entries _, ?_, ?_,
        by omega, by omega⟩
      · simp only [scrub]
        rw [itemsPhase_pos hmi, hlen, hsum, itemsLoop_spec, Option.some_bind,
          sizePhase_pos hms]
        dsimp only
        have hcnt : min (sortLR (entries.filter (fun f => !f.inUse))).length maxItems =
            ((sortLR (entries.filter (fun f => !f.inUse))).drop
              ((sortLR (entries.filter (fun f => !f.inUse))).length -
                min (sortLR (entries.filter (fun f => !f.inUse))).length maxItems)).length := by
          simp only [List.length_drop]
          omega
        rw [← hcnt] at hrun
        rw [hrun, Option.some_bind]
        dsimp only
        have htk : (sortLR (entries.filter (fun f => !f.inUse))).take
            (((sortLR (entries.filter (fun f => !f.inUse))).length -
              min (sortLR (entries.filter (fun f => !f.inUse))).length maxItems) + j) =
            (sortLR (entries.filter (fun f => !f.inUse))).take
              ((sortLR (entries.filter (fun f => !f.inUse))).length -
                min (sortLR (entries.filter (fun f => !f.inUse))).length maxItems) ++
            ((sortLR (entries.filter (fun f => !f.inUse))).drop
              ((sortLR (entries.filter (fun f => !f.inUse))).length -
                min (sortLR (entries.filter (fun f => !f.inUse))).length maxItems)).take j :=
          List.take_add _ _ _
        rw [htk, List.map_append]
        simp
      · intro _
        omega
      · intro _
        have hdd : ((sortLR (entries.filter (fun f => !f.inUse))).drop
            ((sortLR (entries.filter (fun f => !f.inUse))).length -
              min (sortLR (entries.filter (fun f => !f.inUse))).length maxItems)).drop j =
            (sortLR (entries.filter (fun f => !f.inUse))).drop
              (((sortLR (entries.filter (fun f => !f.inUse))).length -
                min (sortLR (entries.filter (fun f => !f.inUse))).length maxItems) + j) := by
          rw [List.drop_drop]
        rw [← hdd]
        exact hle2

/-! ## Disk-backend name encoding (part_005, first document: `salt`,
`tob64`, `fromb64`, `stdFs.makeName`, `stdFs.getKey`)

Go strings are byte strings; keys are modelled as `List Nat` with each
byte `< 256`.  `tob64` is URL-safe base64 *with* padding (the encoder is
`Close`d).  `fromb64` is the URL-safe base64 decoder; a decode error is
`none` (the Go code would report `CorruptInputError` through the
discarded `io.Copy` result).  `salt()` emits 8 base64 characters of
cryptographic random; it enters the model as an arbitrary 8-character
string.  `md5` and the sidecar lookup are parameters: the short-name
claim never evaluates them. -/

/-- The URL-safe base64 alphabet (`base64.URLEncoding`). -/
def b64char (n : Nat) : Char :=
  if n < 26 then Char.ofNat (65 + n)
  else if n < 52 then Char.ofNat (97 + (n - 26))
  else if n < 62 then Char.ofNat (48 + (n - 52))
  else if n = 62 then Char.ofNat 45
  else Char.ofNat 95

/-- Inverse alphabet lookup of the decoder. -/
def b64val (c : Char) : Option Nat :=
  if 65 ≤ c.toNat ∧ c.toNat ≤ 90 then some (c.toNat - 65)
  else if 97 ≤ c.toNat ∧ c.toNat ≤ 122 then some (c.toNat - 97 + 26)
  else if 48 ≤ c.toNat ∧ c.toNat ≤ 57 then some (c.toNat - 48 + 52)
  else if c.toNat = 45 then some 62
  else if c.toNat = 95 then some 63
  else none

theorem b64val_b64char (n : Nat) (h : n < 64) : b64val (b64char n) = some n := by
  interval_cases n <;> decide

theorem b64char_ne_pad {n : Nat} (h : n < 64) : ¬ b64char n = '=' := by
  intro hc
  have h1 := b64val_b64char n h
  rw [hc] at h1
  have h2 : b64val (Char.ofNat 61) = none := by decide
  rw [show ('=' : Char) = Char.ofNat 61 from by decide, h2] at h1
  cases h1

/-- Go `tob64` (part_005): URL-safe base64 of the raw bytes, padded
(`enc.Close()` flushes the final group). -/
def tob64Bytes : List Nat → List Char
  | [] => []
  | [a] => [b64char (a / 4), b64char (a % 4 * 16), '=', '=']
  | [a, b] => [b64char (a / 4), b64char (a % 4 * 16 + b / 16), b64char (b % 16 * 4), '=']
  | a :: b :: c :: rest =>
      b64char (a / 4) :: b64char (a % 4 * 16 + b / 16) ::
        b64char (b % 16 * 4 + c / 64) :: b64char (c % 64) :: tob64Bytes rest

/-- Go `fromb64` (part_005): URL-safe base64 decoding, quad by quad; `=`
padding closes the stream; malformed input is `none`. -/
def fromb64Chars : List Char → Option (List Nat)
  | [] => some []
  | c1 :: c2 :: c3 :: c4 :: rest =>
      (b64val c1).bind (fun v1 =>
        (b64val c2).bind (fun v2 =>
          if c3 = '=' then
            if c4 = '=' ∧ rest = [] then some [v1 * 4 + v2 / 16] else none
          else
            (b64val c3).bind (fun v3 =>
              if c4 = '=' then
                if rest = [] then
                  some [v1 * 4 + v2 / 16, v2 % 16 * 16 + v3 / 4]
                else none
              else
                (b64val c4).bind (fun v4 =>
                  (fromb64Chars rest).map (fun bs =>
                    (v1 * 4 + v2 / 16) :: (v2 % 16 * 16 + v3 / 4) ::
                      (v3 % 4 * 64 + v4) :: bs)))))
  | _ => none

theorem fromb64_chunk (a b c : Nat) (tail : List Char)
    (ha : a < 256) (hb : b < 256) (hc : c < 256) :
    fromb64Chars (b64char (a / 4) :: b64char (a % 4 * 16 + b / 16) ::
        b64char (b % 16 * 4 + c / 64) :: b64char (c % 64) :: tail) =
      (fromb64Chars tail).map (fun bs => a :: b :: c :: bs) := by
  have hv1 := b64val_b64char (a / 4) (by omega)
  have hv2 := b64val_b64char (a % 4 * 16 + b / 16) (by omega)
  have hv3 := b64val_b64char (b % 16 * 4 + c / 64) (by omega)
  have hv4 := b64val_b64char (c % 64) (by omega)
  have hne3 := b64char_ne_pad (show b % 16 * 4 + c / 64 < 64 by omega)
  have hne4 := b64char_ne_pad (show c % 64 < 64 by omega)
  simp only [fromb64Chars, hv1, hv2, hv3, hv4, Option.some_bind,
    if_neg hne3, if_neg hne4]
  have e1 : a / 4 * 4 + (a % 4 * 16 + b / 16) / 16 = a := by omega
  have e2 : (a % 4 * 16 + b / 16) % 16 * 16 + (b % 16 * 4 + c / 64) / 4 = b := by
    omega
  have e3 : (b % 16 * 4 + c / 64) % 4 * 64 + c % 64 = c := by omega
  rw [e1, e2, e3]

theorem fromb64_pad2 (a : Nat) (ha : a < 256) :
    fromb64Chars [b64char (a / 4), b64char (a % 4 * 16), '=', '='] = some [a] := by
  have hv1 := b64val_b64char (a / 4) (by omega)
  have hv2 := b64val_b64char (a % 4 * 16) (by omega)
  simp only [fromb64Chars, hv1, hv2, Option.some_bind, if_pos rfl,
    if_pos (⟨rfl, rfl⟩ : ('=' : Char) = '=' ∧ ([] : List Char) = [])]
  have e1 : a / 4 * 4 + a % 4 * 16 / 16 = a := by omega
  rw [e1]
  simp

theorem fromb64_pad1 (a b : Nat) (ha : a < 256) (hb : b < 256) :
    fromb64Chars [b64char (a / 4), b64char (a % 4 * 16 + b / 16),
      b64char (b % 16 * 4), '='] = some [a, b] := by
  have hv1 := b64val_b64char (a / 4) (by omega)
  have hv2 := b64val_b64char (a % 4 * 16 + b / 16) (by omega)
  have hv3 := b64val_b64char (b % 16 * 4) (by omega)
  have hne3 := b64char_ne_pad (show b % 16 * 4 < 64 by omega)
  simp only [fromb64Chars, hv1, hv2, hv3, Option.some_bind, if_neg hne3,
    if_pos rfl]
  have e1 : a / 4 * 4 + (a % 4 * 16 + b / 16) / 16 = a := by omega
  have e2 : (a % 4 * 16 + b / 16) % 16 * 16 + b % 16 * 4 / 4 = b := by omega
  rw [e1, e2]
  simp

/-- Decoding inverts encoding on byte strings. -/
theorem fromb64_tob64_aux :
    ∀ n (bs : List Nat), bs.length ≤ n → (∀ x ∈ bs, x < 256) →
      fromb64Chars (tob64Bytes bs) = some bs := by
  intro n
  induction n with
  | zero =>
      intro bs hlen _
      cases bs with
      | nil => rfl
      | cons a rest => simp at hlen
  | succ n ih =>
      intro bs hlen hv
      match bs with
      | [] => rfl
      | [a] =>
          simp only [tob64Bytes]
          exact fromb64_pad2 a (hv a (by simp))
      | [a, b] =>
          simp only [tob64Bytes]
          exact fromb64_pad1 a b (hv a (by simp)) (hv b (by simp))
      | a :: b :: c :: rest =>
          simp only [tob64Bytes]
          rw [fromb64_chunk a b c _ (hv a (by simp)) (hv b (by simp))
            (hv c (by simp))]
          rw [ih rest (by simp at hlen ⊢; omega)
            (fun x hx => hv x (by simp [hx]))]
          rfl

theorem fromb64_tob64 (bs : List Nat) (hv : ∀ x ∈ bs, x < 256) :
    fromb64Chars (tob64Bytes bs) = some bs :=
  fromb64_tob64_aux bs.length bs le_rfl hv

/-- Go `tob64(s)` on the raw key bytes. -/
def tob64 (key : List Nat) : List Char := tob64Bytes key

/-- Go `fromb64(s)`; a decode error is `none`. -/
def fromb64 (s : List Char) : Option (List Nat) := fromb64Chars s

/-- Go `stdFs.makeName` (part_005, lines 181–196).  `salt()` is the given
8-character random string; `md5hex` stands for `fmt.Sprintf("%x",
md5.Sum(key))`.  Short keys (`len(tob64(key)) < maxShort = 20`) give
`"s" + salt + tob64(key)` and no sidecar; long keys give
`"l" + salt + md5hex(key)` plus a `.key` sidecar holding the raw key. -/
def makeName (md5hex : List Nat → List Char) (salt : List Char)
    (key : List Nat) : List Char × Option (List Char × List Nat) :=
  if (tob64 key).length < 20 then
    ('s' :: (salt ++ tob64 key), none)
  else
    ('l' :: (salt ++ md5hex key),
      some (('l' :: (salt ++ md5hex key)) ++ ['.', 'k', 'e', 'y'], key))

/-- Go `stdFs.getKey` (part_005, lines 198–217).  A name with the short
prefix `"s"` decodes in place: drop the prefix, drop `saltSize = 8` salt
characters, base64-decode the rest.  Any other name is resolved through
its `.key` sidecar (the `sidecar` parameter reads that file). -/
def getKey (sidecar : List Char → Option (List Nat)) (name : List Char) :
    Option (List Nat) :=
  match name with
  | 's' :: rest => fromb64 (rest.drop 8)
  | _ => sidecar (name ++ ['.', 'k', 'e', 'y'])

/-- Claim C8. For every key whose URL-safe base64 encoding is shorter than
20 characters, `makeName` produces `"s" + salt (8 chars) + tob64(key)`
with no sidecar, and `getKey` recovers the original key from that
filename alone: `getKey (makeName key) = key`. -/
theorem getKey_makeName_short (md5hex : List Nat → List Char)
    (sidecar : List Char → Option (List Nat)) (salt : List Char)
    (key : List Nat) (hsalt : salt.length = 8)
    (hshort : (tob64 key).length < 20) (hkey : ∀ x ∈ key, x < 256) :
    makeName md5hex salt key = ('s' :: (salt ++ tob64 key), none) ∧
      getKey sidecar (makeName md5hex salt key).1 = some key := by
  have hmk : makeName md5hex salt key = ('s' :: (salt ++ tob64 key), none) := by
    rw [makeName, if_pos hshort]
  refine ⟨hmk, ?_⟩
  rw [hmk]
  show fromb64 ((salt ++ tob64 key).drop 8) = some key
  have hdrop : (salt ++ tob64 key).drop 8 = tob64 key := by
    rw [← hsalt]
    exact List.drop_left _ _
  rw [hdrop]
  exact fromb64_tob64 key hkey

/-- Witness for C8 at the key `"test"` (bytes) and salt `"AAAAAAAA"`. -/
theorem getKey_makeName_short_witness :
    makeName (fun _ => []) (['A', 'A', 'A', 'A', 'A', 'A', 'A', 'A'])
        [116, 101, 115, 116] =
      ('s' :: ((['A', 'A', 'A', 'A', 'A', 'A', 'A', 'A']) ++
        tob64 [116, 101, 115, 116]), none) ∧
    getKey (fun _ => none)
      (makeName (fun _ => []) (['A', 'A', 'A', 'A', 'A', 'A', 'A', 'A'])
        [116, 101, 115, 116]).1 = some [116, 101, 115, 116] :=
  getKey_makeName_short (fun _ => []) (fun _ => none) _ _ (by decide)
    (by decide) (by decide)

/-! ## Handle close paths (fscache.go, first document:
`cachedFile.Close` lines 237–242, `cacheReader.Close` lines 280–284;
part_002: `closer.Close`, `broadcaster.Close` lines 45–49)

A Go `panic` is `Except.error ()`. `close(ch)` on an already-closed
channel panics; `sync.WaitGroup.Done` on a zero counter panics
("negative WaitGroup counter"); `os.File.Close` a second time returns
an error but never panics. -/

inductive GoErr where
  /-- Go `os.ErrClosed`: "file already closed". -/
  | fileAlreadyClosed
deriving DecidableEq, Repr

/-- Go `closer.Close` (part_002): `close(a)` on the `chan struct{}`. -/
def closerClose (closed : Bool) : Except Unit Bool :=
  if closed then .error () else .ok true

/-- Go `broadcaster.Close` (part_002, lines 45–49): close the channel,
then `Cond.Broadcast` (no further state). -/
def broadcasterClose (bClosed : Bool) : Except Unit Bool :=
  closerClose bClosed

/-- Go `os.File.Close`: the handle ends closed; a second close reports an
error. -/
def osFileClose (fileClosed : Bool) : Bool × Option GoErr :=
  (true, if fileClosed then some .fileAlreadyClosed else none)

/-- Go `sync.WaitGroup.Done`: decrement, panicking at zero. -/
def grpDone (n : Nat) : Except Unit Nat :=
  if n = 0 then .error () else .ok (n - 1)

/-- State touched by `cachedFile.Close`: the backing `os.File` write
handle, the broadcaster flag, and the entry's `cnt`/`grp` counters. -/
structure WriterHandle where
  fileClosed : Bool
  bClosed : Bool
  cnt : Int
  grpCount : Nat
deriving DecidableEq, Repr

/-- Go `cachedFile.Close` (fscache.go, first document, lines 237–242):
`f.w.Close()` runs first; the deferred `f.b.Close()`, `cnt` decrement
and `f.grp.Done()` then run in LIFO order, and a panic aborts the
call. -/
def cachedFileClose (s : WriterHandle) : Except Unit (WriterHandle × Option GoErr) :=
  let fc := osFileClose s.fileClosed
  match broadcasterClose s.bClosed with
  | .error _ => .error ()
  | .ok _ =>
      match grpDone s.grpCount with
      | .error _ => .error ()
      | .ok g =>
          .ok (⟨fc.1, true, s.cnt - 1, g⟩, fc.2)

/-- State touched by `cacheReader.Close`: the reader's backing handle
and the entry's shared counters. -/
structure RHandle where
  fileClosed : Bool
  cnt : Int
  grpCount : Nat
deriving DecidableEq, Repr

/-- Go `cacheReader.Close` (fscache.go, first document, lines 280–284):
`r.r.Close()`, then the deferred `cnt` decrement and `r.grp.Done()`. -/
def cacheReaderClose (s : RHandle) : Except Unit (RHandle × Option GoErr) :=
  let fc := osFileClose s.fileClosed
  match grpDone s.grpCount with
  | .error _ => .error ()
  | .ok g => .ok (⟨fc.1, s.cnt - 1, g⟩, fc.2)

/-- Counterexample to C9 as stated: a fresh writer handle (`newFile`:
open file, open broadcaster, `cnt = 1`, `grp = 1`) closes once
successfully, and the second `Close` on the same handle panics — the
broadcaster's channel is closed twice. -/
theorem close_twice_panics_cex :
    cachedFileClose ⟨false, false, 1, 1⟩ = .ok (⟨true, true, 0, 0⟩, none) ∧
      cachedFileClose ⟨true, true, 0, 0⟩ = .error () :=
  ⟨rfl, rfl⟩

/-- Claim C9 (amended). A second `Close` on the same handle is not a
no-op: a writer handle's second `Close` panics (double close of the
broadcaster's channel); a reader handle's second `Close` decrements the
entry's counters again — it panics when the in-use group has already
drained to zero, and otherwise mis-decrements the counts while
returning the backend's already-closed error. -/
theorem close_twice_not_noop :
    (∀ s : WriterHandle, s.bClosed = true → cachedFileClose s = .error ()) ∧
    (∀ r : RHandle, r.grpCount = 0 → cacheReaderClose r = .error ()) ∧
    (∀ r : RHandle, r.fileClosed = true → 0 < r.grpCount →
      cacheReaderClose r =
        .ok (⟨true, r.cnt - 1, r.grpCount - 1⟩, some .fileAlreadyClosed)) := by
  refine ⟨?_, ?_, ?_⟩
  · intro s hb
    simp [cachedFileClose, broadcasterClose, closerClose, hb]
  · intro r hg
    simp [cacheReaderClose, grpDone, hg]
  · intro r hf hg
    simp [cacheReaderClose, grpDone, osFileClose, hf, Nat.pos_iff_ne_zero.mp hg]

/-- Witness for the amended C9 at concrete handles. -/
theorem close_twice_not_noop_witness :
    cachedFileClose ⟨true, true, 0, 0⟩ = .error () ∧
      cacheReaderClose ⟨true, 0, 0⟩ = .error () ∧
      cacheReaderClose ⟨true, 0, 2⟩ =
        .ok (⟨true, -1, 1⟩, some .fileAlreadyClosed) :=
  ⟨close_twice_not_noop.1 ⟨true, true, 0, 0⟩ rfl,
   close_twice_not_noop.2.1 ⟨true, 0, 0⟩ rfl,
   close_twice_not_noop.2.2 ⟨true, 0, 2⟩ rfl (by decide)⟩

/-! ## Disk reload (part_005, first document: `stdFs.Reload`,
lines 54–104; the second document of part_004 has the same dedup logic)

The directory listing supplies `(base name, mtime)` pairs; `getKey` is
abstracted as `decode` (C8 treats the encoding itself).  The backend
store is the set of absolute paths that exist; `os.Remove(p)` resolves a
relative `p` against the process working directory `cwd`.  `Reload`
joins the root for the surviving file's emitted path and for the
removal of files with unrecoverable names, but the two dedup branches
call `fs.Remove(fi.Name())` / `fs.Remove(f.Name())` with the *bare*
base name, so those removals resolve against `cwd`, not the cache
root. -/

/-- Whether a path is absolute (`filepath.IsAbs` on Unix). -/
def pathIsAbs (s : String) : Bool :=
  match s.data with
  | '/' :: _ => true
  | _ => false

/-- Whether a filename carries the `.key` sidecar suffix
(`strings.HasSuffix(name, ".key")`). -/
def hasKeySuffix (s : String) : Bool :=
  match s.data.reverse with
  | 'y' :: 'e' :: 'k' :: '.' :: _ => true
  | _ => false

/-- Resolution of a path against the process working directory, as the
OS applies it to `os.Remove` and as `filepath.Abs` computes it. -/
def resolvePath (cwd name : String) : String :=
  if pathIsAbs name then name else cwd ++ "/" ++ name

/-- Go `stdFs.Remove` (part_005): delete the `.key` sidecar, then the
object, at the paths the names resolve to. -/
def stdFsRemovePath (cwd : String) (objects : List String) (name : String) :
    List String :=
  (objects.erase (resolvePath cwd (name ++ ".key"))).erase (resolvePath cwd name)

def lookupAdd : List (String × String × Nat) → String → Option (String × Nat)
  | [], _ => none
  | (k, v) :: rest, key => if k = key then some v else lookupAdd rest key

def updateAdd (l : List (String × String × Nat)) (key : String)
    (v : String × Nat) : List (String × String × Nat) :=
  l.map (fun p => if p.1 = key then (key, v) else p)

/-- The directory walk of `stdFs.Reload`: skip `.key` sidecars, delete
files with unrecoverable names (root-joined path), keep the newest file
per key in `addfiles`, and remove the loser of each duplicate pair —
with the bare base name, exactly as the source does. -/
def reloadLoop (decode : String → Option String) (cwd root : String) :
    List (String × Nat) → List (String × String × Nat) → List String →
      List (String × String × Nat) × List String
  | [], addfiles, objects => (addfiles, objects)
  | (name, mtime) :: rest, addfiles, objects =>
      if hasKeySuffix name then
        reloadLoop decode cwd root rest addfiles objects
      else
        match decode name with
        | none =>
            reloadLoop decode cwd root rest addfiles
              (stdFsRemovePath cwd objects (root ++ "/" ++ name))
        | some key =>
            match lookupAdd addfiles key with
            | none =>
                reloadLoop decode cwd root rest (addfiles ++ [(key, name, mtime)])
                  objects
            | some (oldName, oldTime) =>
                if oldTime < mtime then
                  reloadLoop decode cwd root rest
                    (updateAdd addfiles key (name, mtime))
                    (stdFsRemovePath cwd objects oldName)
                else
                  reloadLoop decode cwd root rest addfiles
                    (stdFsRemovePath cwd objects name)

/-- Go `stdFs.Reload`: walk the listing, then emit one
`(key, absolute path)` binding per surviving key. -/
def stdFsReload (decode : String → Option String) (cwd root : String)
    (files : List (String × Nat)) (objects : List String) :
    List (String × String) × List String :=
  let out := reloadLoop decode cwd root files [] objects
  (out.1.map (fun p => (p.1, resolvePath cwd (root ++ "/" ++ p.2.1))), out.2)

/-- Claim C7, divergence. Two files `f1` (older) and `f2` (newer) in the
directory `/data/cache` decode to the same key; the process runs with
working directory `/home/u`.  After reload the key is bound exactly
once, to the newer file — but the older duplicate is still in the
directory: the dedup branch passed the bare name `f1` to `fs.Remove`,
which resolved it against the working directory instead of the cache
root, deleting nothing. -/
theorem reload_dedup_missed_delete :
    stdFsReload (fun n => if n = "f1" ∨ n = "f2" then some "test" else none)
        "/home/u" "/data/cache" [("f1", 1), ("f2", 2)]
        ["/data/cache/f1", "/data/cache/f2"] =
      ([("test", "/data/cache/f2")], ["/data/cache/f1", "/data/cache/f2"]) := by
  rfl

end Fscache
